import Mathlib

/-!
Verification of the Catalog Query & Duplicate-Verification Engine
(backend of the "catalogador inteligente" repository).

Paths and other Python strings are modelled as `List Char`.  SQLite string
operations (`LIKE`, `SUBSTR`, `INSTR`, `GROUP_CONCAT`) and Python string
operations (`find`, `in`, `split`, slicing, `rstrip`, `lower`) are embedded
below with their documented semantics.  Machine integers are modelled as
`Nat`; file sizes in the schema are non-negative.
-/

/-- Convert a string literal to its character list. -/
def pstr (s : String) : List Char := s.data

/-- ASCII lower-casing of a single character.  SQLite's `LIKE` folds case for
ASCII letters only; Python's `str.lower` is Unicode-aware but agrees with
this on ASCII, which is the character range of the paths involved. -/
def asciiLower (c : Char) : Char :=
  if 'A' ≤ c ∧ c ≤ 'Z' then Char.ofNat (c.toNat + 32) else c

/-- Lexicographic `≤` on character lists by code point (Python `str` order,
SQLite BINARY collation on ASCII text). -/
def strLe : List Char → List Char → Bool
  | [], _ => true
  | _ :: _, [] => false
  | a :: as, b :: bs => if a = b then strLe as bs else decide (a < b)

/-- Zero-based index of the first occurrence of `pat` as a contiguous substring
of `s` (Python `str.find`, returning `none` for -1). -/
def subIndex (pat : List Char) : List Char → Option Nat
  | [] => if pat.isPrefixOf [] then some 0 else none
  | c :: s' =>
    if pat.isPrefixOf (c :: s') then some 0
    else (subIndex pat s').map (· + 1)

/-- Python `pat in s` (substring containment). -/
def containsSub (pat s : List Char) : Bool := (subIndex pat s).isSome

/-- Python `s.split(sep)` for a non-empty separator: greedy left-to-right
scan for occurrences of `sep`, cutting at each.  Implemented with fuel
(`s.length + 1` suffices) so that it is structurally recursive. -/
def splitOnSubFuel (sep : List Char) : Nat → List Char → List Char → List (List Char)
  | 0, acc, _ => [acc.reverse]
  | _ + 1, acc, [] => [acc.reverse]
  | fuel + 1, acc, c :: s' =>
    if sep.isPrefixOf (c :: s') then
      acc.reverse :: splitOnSubFuel sep fuel [] (List.drop (sep.length - 1) s')
    else
      splitOnSubFuel sep fuel (c :: acc) s'

/-- Python `s.split(sep)` (non-empty `sep`). -/
def splitOnSub (sep s : List Char) : List (List Char) :=
  splitOnSubFuel sep (s.length + 1) [] s

/-- The character for a decimal digit `d < 10`. -/
def digitChar (d : Nat) : Char := Char.ofNat (48 + d)

/-- Decimal representation of a natural number, most significant digit
first (Python `str(n)` for non-negative `n`); fuel-structural. -/
def natReprAux : Nat → Nat → List Char
  | 0, _ => []
  | fuel + 1, n =>
    if n < 10 then [digitChar n]
    else natReprAux fuel (n / 10) ++ [digitChar (n % 10)]

/-- Python `str(n)` for a natural number. -/
def natRepr (n : Nat) : List Char := natReprAux (n + 1) n

/-- Python `int(s)` on a string of decimal digits. -/
def parseNat (s : List Char) : Nat :=
  s.foldl (fun acc c => acc * 10 + (c.toNat - 48)) 0

/-- SQLite `LIKE` matching with default settings: `%` matches any sequence,
`_` matches any single character, and ordinary characters compare
ASCII-case-insensitively.  Fuel-structural; `pat.length + s.length + 1`
fuel always suffices. -/
def likeFuel : Nat → List Char → List Char → Bool
  | 0, _, _ => false
  | _ + 1, [], [] => true
  | _ + 1, [], _ :: _ => false
  | fuel + 1, p :: ps, s =>
    if p = '%' then
      likeFuel fuel ps s ||
        (match s with
         | [] => false
         | _ :: s' => likeFuel fuel ('%' :: ps) s')
    else
      match s with
      | [] => false
      | c :: s' =>
        if p = '_' then likeFuel fuel ps s'
        else asciiLower p = asciiLower c && likeFuel fuel ps s'

/-- SQLite `s LIKE pat` with the default (no `ESCAPE`) settings. -/
def sqliteLike (pat s : List Char) : Bool :=
  likeFuel (pat.length + s.length + 1) pat s

/-- Python `s.rstrip(c)`: remove all trailing occurrences of `c`. -/
def rstripChar (c : Char) (s : List Char) : List Char :=
  (s.reverse.dropWhile (· = c)).reverse

/-- First-occurrence deduplication (order of SQL `DISTINCT` output without
`ORDER BY` is unspecified; we fix the scan order). -/
def dedupFirst (l : List (List Char)) : List (List Char) :=
  l.foldl (fun acc x => if x ∈ acc then acc else acc ++ [x]) []

/-- Insert-or-append accumulation used to model a Python `dict` whose
values are appended lists (insertion-ordered, as Python dicts are). -/
def addToGroups {K V : Type} [DecidableEq K] (g : List (K × List V)) (k : K) (v : V) :
    List (K × List V) :=
  match g with
  | [] => [(k, [v])]
  | (k', vs) :: rest =>
    if k = k' then (k', vs ++ [v]) :: rest else (k', vs) :: addToGroups rest k v

/-- Insert-or-add accumulation used to model a Python `dict` whose values
are running integer totals (insertion-ordered). -/
def addToSums {K : Type} [DecidableEq K] (g : List (K × Nat)) (k : K) (v : Nat) :
    List (K × Nat) :=
  match g with
  | [] => [(k, v)]
  | (k', n) :: rest =>
    if k = k' then (k', n + v) :: rest else (k', n) :: addToSums rest k v

/-!
## Data model

One row of the `files` table (`FileRecord` of the spec).  A catalog is a
`List FileRec` in rowid order (the scan order SQLite uses for ungrouped,
unordered reads).
-/

structure FileRec where
  id : Nat
  path : List Char
  filename : List Char
  extension : List Char
  size_bytes : Nat
  created_at : Int
  modified_at : Int
  md5_hash : List Char
  sha256_hash : Option (List Char)
  sha256_verified : Bool
deriving DecidableEq, Repr

abbrev Catalog := List FileRec

/-- Group a catalog by a string-valued key, keeping groups in first-occurrence
order and members in row order (the grouping underlying the `GROUP BY
md5_hash` queries; their final ordering is applied separately). -/
def groupByKey (key : FileRec → List Char) (cat : Catalog) :
    List (List Char × List FileRec) :=
  cat.foldl (fun g r => addToGroups g (key r) r) []

/-- Sum of `size_bytes` over a list of records (`SUM(size_bytes)`). -/
def sumSizes (rs : List FileRec) : Nat := (rs.map (·.size_bytes)).sum

/-- SQL `GROUP_CONCAT(path, '|||')` over a group, in member order. -/
def concatPaths (rs : List FileRec) : List Char :=
  (pstr "|||").intercalate (rs.map (·.path))

/-- SQL `GROUP_CONCAT(id, ',')` over a group, in member order. -/
def concatIds (rs : List FileRec) : List Char :=
  (pstr ",").intercalate (rs.map (fun r => natRepr r.id))

/-!
## `Database` (src/backend/database.py)
-/

/-- One element of `Database.get_duplicates()`'s result. -/
structure DupGroup where
  md5_hash : List Char
  count : Nat
  wasted_space : Nat
  paths : List (List Char)
deriving DecidableEq, Repr

/-- Embeds `Database.get_duplicates`: group rows by `md5_hash`, keep groups with
`count > 1`, report `SUM(size_bytes)` under the name `wasted_space`, and
order by it descending (ties are left in an unspecified order by SQL; we
fix the stable order). -/
def getDuplicates (cat : Catalog) : List DupGroup :=
  let gs := (groupByKey (·.md5_hash) cat).filter (fun g => g.2.length > 1)
  let dups := gs.map (fun g =>
    let joined := concatPaths g.2
    { md5_hash := g.1
      count := g.2.length
      wasted_space := sumSizes g.2
      paths := if joined = [] then [] else splitOnSub (pstr "|||") joined })
  List.insertionSort (fun a b => b.wasted_space ≤ a.wasted_space) dups

/-- One element of `Database.get_duplicate_candidates()`'s result. -/
structure CandGroup where
  md5_hash : List Char
  count : Nat
  paths : List (List Char)
  ids : List Nat
  any_verified : Bool
deriving DecidableEq, Repr

/-- Embeds `Database.get_duplicate_candidates`: group rows by `md5_hash`, keep
groups with `count > 1`, concatenate paths with `'|||'` and ids with `','`
and split them back in Python, report `MAX(sha256_verified)` as
`any_verified`, order by `count` descending. -/
def getDuplicateCandidates (cat : Catalog) : List CandGroup :=
  let gs := (groupByKey (·.md5_hash) cat).filter (fun g => g.2.length > 1)
  let cands := gs.map (fun g =>
    let joinedPaths := concatPaths g.2
    let joinedIds := concatIds g.2
    { md5_hash := g.1
      count := g.2.length
      paths := if joinedPaths = [] then [] else splitOnSub (pstr "|||") joinedPaths
      ids := if joinedIds = [] then []
             else (splitOnSub (pstr ",") joinedIds).map parseNat
      any_verified := g.2.any (·.sha256_verified) })
  List.insertionSort (fun a b => b.count ≤ a.count) cands

/-- Embeds `Database.update_sha256_hash`: `UPDATE files SET sha256_hash = ?,
sha256_verified = 1 WHERE id = ?`. -/
def updateSha256Hash (cat : Catalog) (file_id : Nat) (sha256 : List Char) : Catalog :=
  cat.map (fun r =>
    if r.id = file_id then
      { r with sha256_hash := some sha256, sha256_verified := true }
    else r)

/-- One element of `Database.get_verified_duplicates()`'s result. -/
structure VerDupGroup where
  sha256_hash : List Char
  count : Nat
  wasted_space : Nat
  paths : List (List Char)
  verified : Bool
deriving DecidableEq, Repr

/-- Embeds `Database.get_verified_duplicates`: restrict to rows with
`sha256_verified = 1 AND sha256_hash IS NOT NULL`, group by `sha256_hash`,
keep groups with `count > 1`, report `SUM(size_bytes)` as `wasted_space`,
order by it descending. -/
def getVerifiedDuplicates (cat : Catalog) : List VerDupGroup :=
  let rows := cat.filter (fun r => r.sha256_verified && r.sha256_hash.isSome)
  let gs := (groupByKey (fun r => r.sha256_hash.getD []) rows).filter
    (fun g => g.2.length > 1)
  let dups := gs.map (fun g =>
    let joined := concatPaths g.2
    { sha256_hash := g.1
      count := g.2.length
      wasted_space := sumSizes g.2
      paths := if joined = [] then [] else splitOnSub (pstr "|||") joined
      verified := true })
  List.insertionSort (fun a b => b.wasted_space ≤ a.wasted_space) dups

/-!
## Tree builder (`Database.get_tree_structure`)
-/

/-- One child entry of a tree level; `etype` is the `"type"` field of the
Python dict, `pstr "dir"` or `pstr "file"`. -/
structure TreeEntry where
  name : List Char
  path : List Char
  etype : List Char
  size : Nat
  has_children : Bool
deriving DecidableEq, Repr

/-- Result of `get_tree_structure`. -/
structure TreeResult where
  path : List Char
  children : List TreeEntry
deriving DecidableEq, Repr

/-- The Python sort key `(x["type"] == "file", x["name"].lower())`, as a
non-strict total order: directories before files, then case-insensitive
lexicographic name order.  `list.sort` is a stable sort, and a stable sort
by a total preorder has a unique output, so `insertionSort` below produces
exactly CPython's result. -/
def childLeB (a b : TreeEntry) : Bool :=
  let fa : Bool := decide (a.etype = pstr "file")
  let fb : Bool := decide (b.etype = pstr "file")
  if fa = fb then strLe (a.name.map asciiLower) (b.name.map asciiLower)
  else fb

/-- The SQL filter `SUBSTR(path, 2, 2) = ':\'` and `LENGTH(path) > 2`: the Windows
drive-letter root filter. -/
def isDriveRow (r : FileRec) : Bool :=
  r.path.length > 2 && (r.path.drop 1).take 2 = [':', '\\']

/-- The Unix root expression
`'/' || SUBSTR(path, 2, INSTR(SUBSTR(path, 2), '/') - 1)`.
When the remainder of the path has no `/`, `INSTR` is 0, so the length
argument is `-1` and SQLite's `SUBSTR` returns the one character preceding
position 2, i.e. the first character of the path. -/
def unixRootOf (p : List Char) : List Char :=
  match subIndex ['/'] (p.drop 1) with
  | some i => '/' :: (p.drop 1).take i
  | none => '/' :: p.take 1

/-- Build a root entry (`size` 0, `has_children` true). -/
def rootEntry (root : List Char) : TreeEntry :=
  { name := root, path := root, etype := pstr "dir", size := 0, has_children := true }

/-- The Windows branch of the root listing: `SELECT DISTINCT SUBSTR(path,1,3)
... ORDER BY root_path` (no `LIMIT`), then the Python truthiness filter. -/
def windowsRoots (cat : Catalog) : List TreeEntry :=
  let roots := ((cat.filter isDriveRow).map (fun r => r.path.take 3))
  let distinctSorted := List.insertionSort (fun a b => strLe a b = true) (dedupFirst roots)
  (distinctSorted.filter (· ≠ [])).map rootEntry

/-- The Unix branch of the root listing: `SELECT DISTINCT ... WHERE path
LIKE '/%' LIMIT 20` (no `ORDER BY`; `DISTINCT` output order is unspecified,
we fix first-occurrence scan order), then the Python truthiness filter. -/
def unixRoots (cat : Catalog) : List TreeEntry :=
  let rows := cat.filter (fun r => sqliteLike (pstr "/%") r.path)
  let roots := (dedupFirst (rows.map (fun r => unixRootOf r.path))).take 20
  (roots.filter (· ≠ [])).map rootEntry

/-- First segment of a relative path: Python `relative.split(sep)[0]`. -/
def firstSeg (sep : Char) (relative : List Char) : List Char :=
  relative.takeWhile (· ≠ sep)

/-- The per-item loop of the non-root branch: build the insertion-ordered
subdirectory size accumulator (the `dir_map`, keyed here by the first
segment — with the parent and separator fixed, `dir_path = P + sep + name`
is in bijection with the name) and the direct-file entry list. -/
def childAccum (P : List Char) (sep : Char) (items : List FileRec) :
    List (List Char × Nat) × List TreeEntry :=
  items.foldl
    (fun acc item =>
      let relative := item.path.drop (P.length + 1)
      if sep ∈ relative then
        (addToSums acc.1 (firstSeg sep relative) item.size_bytes, acc.2)
      else
        (acc.1,
         acc.2 ++ [{ name := item.filename, path := item.path, etype := pstr "file",
                     size := item.size_bytes, has_children := false }]))
    ([], [])

/-- A subdirectory entry of the non-root branch. -/
def dirEntry (P : List Char) (sep : Char) (g : List Char × Nat) : TreeEntry :=
  { name := g.1, path := P ++ sep :: g.1, etype := pstr "dir",
    size := g.2, has_children := true }

/-- The non-root branch of `get_tree_structure` after the `items` query:
subdirectory entries (insertion order) followed by file entries, stably
sorted by `(type == "file", name.lower())`. -/
def buildChildren (P : List Char) (sep : Char) (items : List FileRec) : List TreeEntry :=
  let acc := childAccum P sep items
  List.insertionSort (fun a b => childLeB a b = true)
    (acc.1.map (dirEntry P sep) ++ acc.2)

/-- Embeds `Database.get_tree_structure` (src/backend/database.py): empty-catalog
guard, separator detection from the first row, root listing for the empty
path, and otherwise one level of children of the (trailing-separator
stripped) parent, selected by `path LIKE parent + sep + '%'`. -/
def getTreeStructure (cat : Catalog) (path0 : List Char) : TreeResult :=
  match cat with
  | [] => { path := path0, children := [] }
  | sample :: _ =>
    let sep : Char := if '\\' ∈ sample.path then '\\' else '/'
    if path0 = [] then
      { path := [],
        children := if sep = '\\' then windowsRoots cat else unixRoots cat }
    else
      let P := rstripChar sep path0
      let pat := P ++ [sep, '%']
      let items := cat.filter (fun r => sqliteLike pat r.path)
      { path := P, children := buildChildren P sep items }

/-!
## SHA256 computer (src/backend/sha256_computer.py) and the verification
endpoint (src/backend/main.py, `verify_duplicates`)

File reading is modelled by `fs : List Char → Option (List Char)` mapping a
path to its content (`none` = the read raises, the file being missing or
unreadable), and the SHA-256 digest by an abstract `hashFn` on contents
(streaming a file through the digest in chunks yields the digest of its
whole content).
-/

/-- One element of `compute_multiple`'s result list. -/
structure HashResult where
  path : List Char
  sha256 : Option (List Char)
  success : Bool
  error : Option (List Char)
deriving DecidableEq, Repr

/-- One iteration of `compute_multiple`'s loop: hash one path, catching
the per-file exception of `compute_sha256` and recording it as an error
message (`"Error hashing {path}: {e}"`; the exception text is abstracted
to its fixed prefix and the path). -/
def hashOne (fs : List Char → Option (List Char))
    (hashFn : List Char → List Char) (p : List Char) : HashResult :=
  match fs p with
  | some c => { path := p, sha256 := some (hashFn c), success := true, error := none }
  | none => { path := p, sha256 := none, success := false,
              error := some (pstr "Error hashing " ++ p) }

/-- Embeds `compute_multiple`: hash each path in order, isolating per-file
failures. -/
def computeMultiple (fs : List Char → Option (List Char))
    (hashFn : List Char → List Char) (paths : List (List Char)) : List HashResult :=
  paths.map (hashOne fs hashFn)

/-- One member of a verified group (`{"path": ..., "file_id": ...}`). -/
structure VerifyFileEntry where
  path : List Char
  file_id : Nat
deriving DecidableEq, Repr

/-- One element of the endpoint's `verified_groups`. -/
structure VerifiedGroup where
  sha256_hash : List Char
  files : List VerifyFileEntry
  is_duplicate : Bool
  count : Nat
deriving DecidableEq, Repr

/-- The JSON body returned by `POST /api/duplicates/verify`.  Note that it
carries only the MD5 echo, the groups of *successfully* hashed files, and
three counts: per-file failure reasons are not part of the response. -/
structure VerifyResponse where
  md5_hash : List Char
  verified_groups : List VerifiedGroup
  total_files : Nat
  successful : Nat
  failed : Nat
deriving DecidableEq, Repr

/-- The sha256-keyed grouping dict the endpoint builds over the successful
results (`sha256_groups` in the source): insertion-ordered, keyed by the
fresh digest, member entries in request order. -/
def verifyGroupsAcc (fs : List Char → Option (List Char))
    (hashFn : List Char → List Char) (ids : List Nat) (paths : List (List Char)) :
    List (List Char × List VerifyFileEntry) :=
  (computeMultiple fs hashFn paths).enum.foldl
    (fun g ir =>
      if ir.2.success then
        addToGroups g (ir.2.sha256.getD []) ⟨ir.2.path, ids.getD ir.1 0⟩
      else g) []

/-- Embeds `verify_duplicates` (src/backend/main.py): hash all requested paths,
persist the hash of each success under `request.file_ids[i]` (the source
indexes `file_ids` by the position in `results`; a length mismatch raises
in Python, therefore theorems assume equal lengths and the embedding
totalizes the index with a default), regroup successes by the fresh SHA256
into an insertion-ordered dict, and return the groups plus counts together
with the updated catalog. -/
def verifyDuplicates (fs : List Char → Option (List Char))
    (hashFn : List Char → List Char) (db : Catalog)
    (md5 : List Char) (ids : List Nat) (paths : List (List Char)) :
    VerifyResponse × Catalog :=
  let results := computeMultiple fs hashFn paths
  let db' := results.enum.foldl
    (fun d ir =>
      if ir.2.success then updateSha256Hash d (ids.getD ir.1 0) (ir.2.sha256.getD [])
      else d) db
  let groups := verifyGroupsAcc fs hashFn ids paths
  let verified_groups := groups.map (fun g =>
    { sha256_hash := g.1, files := g.2,
      is_duplicate := decide (g.2.length > 1), count := g.2.length })
  ({ md5_hash := md5
     verified_groups := verified_groups
     total_files := results.length
     successful := results.countP (·.success)
     failed := results.countP (fun r => !r.success) }, db')

/-!
## Heuristic classifier (src/backend/ai_service.py)
-/

/-- A cleanup suggestion.  `stype` is the `"type"` field (`"file"` or
`"folder"`).  The source's constant `confidence: float = 1.0` default is
not modelled (floating point; no claim concerns it). -/
structure Suggestion where
  path : List Char
  stype : List Char
  reason : List Char
  action : List Char
  size_bytes : Nat
deriving DecidableEq, Repr

/-- Embeds `_find_temp_files`: extension in `('tmp', 'temp', 'chk')`, one `delete`
suggestion per file. -/
def findTempFiles (cat : Catalog) : List Suggestion :=
  (cat.filter (fun r =>
      r.extension = pstr "tmp" ∨ r.extension = pstr "temp" ∨ r.extension = pstr "chk")).map
    (fun r =>
      { path := r.path, stype := pstr "file",
        reason := pstr "Arquivo temporário detectado",
        action := pstr "delete", size_bytes := r.size_bytes })

/-- Embeds `_find_old_logs`: extension in `('log', 'bak', 'old', 'dmp')` and
`modified_at` before `now - 30 days`, one `archive` suggestion per file. -/
def findOldLogs (now : Int) (cat : Catalog) : List Suggestion :=
  (cat.filter (fun r =>
      (r.extension = pstr "log" ∨ r.extension = pstr "bak" ∨
       r.extension = pstr "old" ∨ r.extension = pstr "dmp") ∧
      r.modified_at < now - 30 * 24 * 60 * 60)).map
    (fun r =>
      { path := r.path, stype := pstr "file",
        reason := pstr "Arquivo de log/backup antigo (> 30 dias)",
        action := pstr "archive", size_bytes := r.size_bytes })

/-- The root computation of the folder rules: if `"\folder\"` occurs in the
path take the prefix up to and including the folder name at its first
occurrence, else the same for `"/folder/"`, else no contribution. -/
def folderRootOf (folder p : List Char) : Option (List Char) :=
  (subIndex ('\\' :: folder ++ ['\\']) p).elim
    ((subIndex ('/' :: folder ++ ['/']) p).elim none
      (fun i => some (p.take (i + folder.length + 1))))
    (fun i => some (p.take (i + folder.length + 1)))

/-- The per-folder body of `_find_dev_folders` / `_find_cache_folders`:
pre-filter rows with the two `LIKE '%<sep>folder<sep>%'` patterns, then
accumulate `size_bytes` per root in a Python dict (insertion-ordered). -/
def folderGroups (folder : List Char) (cat : Catalog) : List (List Char × Nat) :=
  let rows := cat.filter (fun r =>
    sqliteLike ('%' :: '\\' :: folder ++ ['\\', '%']) r.path ||
    sqliteLike ('%' :: '/' :: folder ++ ['/', '%']) r.path)
  rows.foldl (fun g r =>
    (folderRootOf folder r.path).elim g (fun root => addToSums g root r.size_bytes)) []

/-- The dev/build folder names of `_find_dev_folders`. -/
def devFolderNames : List (List Char) :=
  [pstr "node_modules", pstr "venv", pstr ".venv", pstr "target",
   pstr "dist", pstr "build"]

/-- The cache folder names of `_find_cache_folders`. -/
def cacheFolderNames : List (List Char) :=
  [pstr "__pycache__", pstr ".cache", pstr ".pytest_cache", pstr ".mypy_cache"]

/-- Embeds `_find_dev_folders`: one `ignore` suggestion per distinct root per
folder name. -/
def findDevFolders (cat : Catalog) : List Suggestion :=
  devFolderNames.foldl
    (fun acc folder =>
      acc ++ (folderGroups folder cat).map (fun g =>
        { path := g.1, stype := pstr "folder",
          reason := pstr "Pasta de dependências/build (" ++ folder ++ pstr ")",
          action := pstr "ignore", size_bytes := g.2 }))
    []

/-- Embeds `_find_cache_folders`: one `delete` suggestion per distinct root per
folder name. -/
def findCacheFolders (cat : Catalog) : List Suggestion :=
  cacheFolderNames.foldl
    (fun acc folder =>
      acc ++ (folderGroups folder cat).map (fun g =>
        { path := g.1, stype := pstr "folder",
          reason := pstr "Pasta de cache (" ++ folder ++ pstr ")",
          action := pstr "delete", size_bytes := g.2 }))
    []

/-- Embeds `AIService.get_suggestions`: the four rules in order. -/
def getSuggestions (now : Int) (cat : Catalog) : List Suggestion :=
  findTempFiles cat ++ findOldLogs now cat ++ findDevFolders cat ++ findCacheFolders cat

/-!
## Specification-side definitions and helpers for the claim statements
-/

/-- Wasted space of a duplicate group as the spec defines it:
`(count - 1) * size` of a member, the total size of the group minus one
kept copy. -/
def specWastedSpace (count memberSize : Nat) : Nat := (count - 1) * memberSize

/-- The data-model invariant: `sha256_verified = true` implies
`sha256_hash` is non-null. -/
def ShaInvariant (db : Catalog) : Prop :=
  ∀ r ∈ db, r.sha256_verified = true → r.sha256_hash ≠ none

/-- All fields other than the two SHA256 fields agree. -/
def SameNonShaFields (r r' : FileRec) : Prop :=
  r'.id = r.id ∧ r'.path = r.path ∧ r'.filename = r.filename ∧
  r'.extension = r.extension ∧ r'.size_bytes = r.size_bytes ∧
  r'.created_at = r.created_at ∧ r'.modified_at = r.modified_at ∧
  r'.md5_hash = r.md5_hash

/-- A pattern fragment free of the SQL `LIKE` wildcards. -/
def noWildcard (l : List Char) : Bool :=
  l.all (fun c => !(c = '%') && !(c = '_'))

/-- First-match lookup of a group's member list (the accumulated dict has
pairwise-distinct keys, so this is the group of `k`, or `[]`). -/
def lookupGroup {K V : Type} [DecidableEq K] (k : K) :
    List (K × List V) → List V
  | [] => []
  | (k', vs) :: rest => if k' = k then vs else lookupGroup k rest

/-- First-match lookup of an accumulated sum (0 when the key is absent). -/
def lookupSum {K : Type} [DecidableEq K] (k : K) : List (K × Nat) → Nat
  | [] => 0
  | (k', n) :: rest => if k' = k then n else lookupSum k rest

/-- The file entry the tree builder emits for a record directly inside the
requested directory. -/
def fileEntryOf (r : FileRec) : TreeEntry :=
  { name := r.filename, path := r.path, etype := pstr "file",
    size := r.size_bytes, has_children := false }

/-- Build a catalog record from plain data (used for the concrete
catalogs below). -/
def mkRec (i : Nat) (p fn : String) (sz : Nat) (md5 : String)
    (sha : Option String := none) : FileRec :=
  { id := i, path := pstr p, filename := pstr fn, extension := [],
    size_bytes := sz, created_at := 0, modified_at := 0, md5_hash := pstr md5,
    sha256_hash := sha.map pstr, sha256_verified := sha.isSome }

/-- Two byte-identical 100-byte copies: the failing input for the
wasted-space formula. -/
def c1Cat : Catalog :=
  [mkRec 1 "/p1" "p1" 100 "m" (some "s"), mkRec 2 "/p2" "p2" 100 "m" (some "s")]

/-- A catalog whose only record's path does not start with `/a_b/`. -/
def c4Cat : Catalog := [mkRec 1 "/axb/f.txt" "f.txt" 10 "m"]

/-- The spec's tree scenario: `/a/b/x.txt` (100), `/a/b/y.txt` (200),
`/a/c.txt` (50). -/
def c5Cat : Catalog :=
  [mkRec 1 "/a/b/x.txt" "x.txt" 100 "h1", mkRec 2 "/a/b/y.txt" "y.txt" 200 "h2",
   mkRec 3 "/a/c.txt" "c.txt" 50 "h3"]

/-- A backslash-separated catalog with 21 distinct drive letters. -/
def c6WinCat : Catalog :=
  (List.range 21).map (fun i =>
    { id := i, path := [Char.ofNat (65 + i), ':', '\\', 'f'], filename := ['f'],
      extension := [], size_bytes := 1, created_at := 0, modified_at := 0,
      md5_hash := ['m'], sha256_hash := none, sha256_verified := false })

/-- A small slash-separated catalog (for the amended root-listing bound). -/
def c6UnixCat : Catalog := [mkRec 1 "/a/f" "f" 1 "m", mkRec 2 "/b/g" "g" 2 "m"]

/-- Two records sharing an MD5 whose paths contain `||` (but not `|||`). -/
def c10Cat : Catalog := [mkRec 1 "a||" "a" 1 "m", mkRec 2 "||b" "b" 1 "m"]

/-- Concrete filesystem for the verification claims: two readable files
with distinct contents and one unreadable path. -/
def cFs : List Char → Option (List Char) := fun p =>
  if p = pstr "/f/g1" then some (pstr "AAA")
  else if p = pstr "/f/g2" then some (pstr "BBB")
  else none

/-- Concrete injective stand-in for the SHA-256 digest. -/
def cHash : List Char → List Char := fun c => 'H' :: c

/-- Catalog holding the three records the verification requests refer to. -/
def cVerifyDb : Catalog :=
  [mkRec 1 "/f/g1" "g1" 5 "m", mkRec 2 "/f/g2" "g2" 5 "m",
   mkRec 3 "/f/bad" "bad" 5 "m"]

/-- Two `node_modules` roots plus an unrelated record. -/
def c7Cat : Catalog :=
  [mkRec 1 "/p1/node_modules/a.js" "a.js" 10 "h1",
   mkRec 2 "/p1/node_modules/lib/b.js" "b.js" 20 "h2",
   mkRec 3 "/p2/node_modules/c.js" "c.js" 40 "h3",
   mkRec 4 "/p1/other/d.js" "d.js" 5 "h4"]

/-- A path mixing both separator styles: the `dist` segment occurs
slash-bounded at index 2 and backslash-bounded at index 9. -/
def c7MixCat : Catalog :=
  [mkRec 1 "/a/dist/b\\dist\\c" "c" 10 "m"]

/-- The successfully hashed requested files whose fresh SHA256 digest is
`h`, in request order, as response file entries — the specification-side
description of one verified group. -/
def successesWithHash (fs : List Char → Option (List Char))
    (hashFn : List Char → List Char) (ids : List Nat) (paths : List (List Char))
    (h : List Char) : List VerifyFileEntry :=
  (paths.enum.filter (fun ip =>
      match fs ip.2 with
      | some c => decide (hashFn c = h)
      | none => false)).map
    (fun ip => { path := ip.2, file_id := ids.getD ip.1 0 })

/-- Relation between a record and its image under `update_sha256_hash
file_id sha`: all non-SHA fields are untouched, records with another id
are untouched entirely, and the record with the given id gets exactly
`sha256_hash = sha` and `sha256_verified = true`, set together. -/
def UpdateRel (file_id : Nat) (sha : List Char) (r r' : FileRec) : Prop :=
  SameNonShaFields r r' ∧
  (r.id ≠ file_id → r' = r) ∧
  (r.id = file_id → r'.sha256_hash = some sha ∧ r'.sha256_verified = true)

/-- Relation between a record and its image after a verification batch:
all non-SHA fields are untouched, and the record is either entirely
untouched or carries a successfully computed hash with the verified flag
set together with it. -/
def VerifyRel (fs : List Char → Option (List Char))
    (hashFn : List Char → List Char) (r r' : FileRec) : Prop :=
  SameNonShaFields r r' ∧
  (r' = r ∨ (r'.sha256_verified = true ∧
    ∃ c p, fs p = some c ∧ r'.sha256_hash = some (hashFn c)))

/-!
## Generic lemmas about the insertion-ordered accumulators
-/

theorem lookupGroup_addToGroups {K V : Type} [DecidableEq K]
    (g : List (K × List V)) (k₀ k : K) (v : V) :
    lookupGroup k (addToGroups g k₀ v) =
      if k = k₀ then lookupGroup k g ++ [v] else lookupGroup k g := by
  induction g with
  | nil =>
    simp only [addToGroups, lookupGroup]
    by_cases h : k = k₀
    · subst h; simp
    · simp [h, Ne.symm h]
  | cons hd tl ih =>
    obtain ⟨k', vs⟩ := hd
    by_cases h1 : k₀ = k'
    · subst h1
      simp only [addToGroups, if_pos rfl]
      by_cases h2 : k = k₀
      · subst h2; simp [lookupGroup]
      · simp [lookupGroup, h2, Ne.symm h2]
    · simp only [addToGroups, if_neg h1]
      by_cases h2 : k' = k
      · subst h2
        simp [lookupGroup, Ne.symm h1]
      · simp only [lookupGroup, if_neg h2]
        exact ih

theorem keys_addToGroups {K V : Type} [DecidableEq K]
    (g : List (K × List V)) (k₀ : K) (v : V) :
    (addToGroups g k₀ v).map Prod.fst =
      if k₀ ∈ g.map Prod.fst then g.map Prod.fst else g.map Prod.fst ++ [k₀] := by
  induction g with
  | nil => simp [addToGroups]
  | cons hd tl ih =>
    obtain ⟨k', vs⟩ := hd
    by_cases h1 : k₀ = k'
    · subst h1; simp [addToGroups]
    · simp only [addToGroups, if_neg h1, List.map_cons]
      rw [ih]
      by_cases h2 : k₀ ∈ tl.map Prod.fst
      · simp [List.mem_cons, h1, h2]
      · simp [List.mem_cons, h1, h2]

theorem nodup_keys_addToGroups {K V : Type} [DecidableEq K]
    {g : List (K × List V)} (hnd : (g.map Prod.fst).Nodup) (k₀ : K) (v : V) :
    ((addToGroups g k₀ v).map Prod.fst).Nodup := by
  rw [keys_addToGroups]
  by_cases h : k₀ ∈ g.map Prod.fst
  · simpa [h] using hnd
  · rw [if_neg h, List.nodup_append]
    refine ⟨hnd, List.nodup_singleton _, ?_⟩
    intro a ha hb
    rw [List.mem_singleton] at hb
    subst hb
    exact h ha

theorem lookupGroup_eq_of_mem {K V : Type} [DecidableEq K]
    {g : List (K × List V)} (hnd : (g.map Prod.fst).Nodup) {k : K} {vs : List V}
    (h : (k, vs) ∈ g) : lookupGroup k g = vs := by
  induction g with
  | nil => simp at h
  | cons hd tl ih =>
    obtain ⟨k', vs'⟩ := hd
    rw [List.map_cons, List.nodup_cons] at hnd
    rcases List.mem_cons.mp h with h1 | h1
    · injection h1.symm with hk hv
      subst hk; subst hv
      simp [lookupGroup]
    · have hk : k' ≠ k := by
        intro he
        subst he
        exact hnd.1 (List.mem_map.mpr ⟨(k', vs), h1, rfl⟩)
      simp only [lookupGroup, if_neg hk]
      exact ih hnd.2 h1

theorem mem_of_lookupGroup {K V : Type} [DecidableEq K]
    {g : List (K × List V)} {k : K} (h : k ∈ g.map Prod.fst) :
    (k, lookupGroup k g) ∈ g := by
  induction g with
  | nil => simp at h
  | cons hd tl ih =>
    obtain ⟨k', vs⟩ := hd
    by_cases h1 : k' = k
    · subst h1; simp [lookupGroup]
    · rw [List.map_cons] at h
      rcases List.mem_cons.mp h with h2 | h2
      · exact absurd h2.symm h1
      · simp only [lookupGroup, if_neg h1]
        exact List.mem_cons_of_mem _ (ih h2)

theorem lookupGroup_foldl {K V : Type} [DecidableEq K]
    (pairs : List (K × V)) (g : List (K × List V)) (k : K) :
    lookupGroup k (pairs.foldl (fun g kv => addToGroups g kv.1 kv.2) g) =
      lookupGroup k g ++ (pairs.filter (fun kv => kv.1 = k)).map Prod.snd := by
  induction pairs generalizing g with
  | nil => simp
  | cons hd tl ih =>
    rw [List.foldl_cons, ih, lookupGroup_addToGroups]
    by_cases h : k = hd.1
    · subst h
      simp [List.filter_cons, List.append_assoc]
    · simp [List.filter_cons, h, Ne.symm h]

theorem keys_mem_foldl_groups {K V : Type} [DecidableEq K]
    (pairs : List (K × V)) (g : List (K × List V)) (k : K) :
    (k ∈ (pairs.foldl (fun g kv => addToGroups g kv.1 kv.2) g).map Prod.fst) ↔
      (k ∈ g.map Prod.fst ∨ k ∈ pairs.map Prod.fst) := by
  induction pairs generalizing g with
  | nil => simp
  | cons hd tl ih =>
    rw [List.foldl_cons, ih, keys_addToGroups]
    by_cases h : hd.1 ∈ g.map Prod.fst
    · rw [if_pos h]
      simp only [List.map_cons, List.mem_cons]
      constructor
      · rintro (h1 | h1)
        · exact Or.inl h1
        · exact Or.inr (Or.inr h1)
      · rintro (h1 | h1 | h1)
        · exact Or.inl h1
        · exact Or.inl (by rw [h1]; exact h)
        · exact Or.inr h1
    · rw [if_neg h]
      simp only [List.map_cons, List.mem_cons, List.mem_append, List.mem_singleton]
      tauto

theorem nodup_keys_foldl_groups {K V : Type} [DecidableEq K]
    (pairs : List (K × V)) {g : List (K × List V)}
    (hnd : (g.map Prod.fst).Nodup) :
    ((pairs.foldl (fun g kv => addToGroups g kv.1 kv.2) g).map Prod.fst).Nodup := by
  induction pairs generalizing g with
  | nil => simpa
  | cons hd tl ih => exact ih (nodup_keys_addToGroups hnd hd.1 hd.2)

theorem lookupSum_addToSums {K : Type} [DecidableEq K]
    (g : List (K × Nat)) (k₀ k : K) (v : Nat) :
    lookupSum k (addToSums g k₀ v) =
      if k = k₀ then lookupSum k g + v else lookupSum k g := by
  induction g with
  | nil =>
    simp only [addToSums, lookupSum]
    by_cases h : k = k₀
    · subst h; simp
    · simp [h, Ne.symm h]
  | cons hd tl ih =>
    obtain ⟨k', n⟩ := hd
    by_cases h1 : k₀ = k'
    · subst h1
      simp only [addToSums, if_pos rfl]
      by_cases h2 : k = k₀
      · subst h2; simp [lookupSum]
      · simp [lookupSum, h2, Ne.symm h2]
    · simp only [addToSums, if_neg h1]
      by_cases h2 : k' = k
      · subst h2
        simp [lookupSum, Ne.symm h1]
      · simp only [lookupSum, if_neg h2]
        exact ih

theorem keys_addToSums {K : Type} [DecidableEq K]
    (g : List (K × Nat)) (k₀ : K) (v : Nat) :
    (addToSums g k₀ v).map Prod.fst =
      if k₀ ∈ g.map Prod.fst then g.map Prod.fst else g.map Prod.fst ++ [k₀] := by
  induction g with
  | nil => simp [addToSums]
  | cons hd tl ih =>
    obtain ⟨k', n⟩ := hd
    by_cases h1 : k₀ = k'
    · subst h1; simp [addToSums]
    · simp only [addToSums, if_neg h1, List.map_cons]
      rw [ih]
      by_cases h2 : k₀ ∈ tl.map Prod.fst
      · simp [List.mem_cons, h1, h2]
      · simp [List.mem_cons, h1, h2]

theorem nodup_keys_addToSums {K : Type} [DecidableEq K]
    {g : List (K × Nat)} (hnd : (g.map Prod.fst).Nodup) (k₀ : K) (v : Nat) :
    ((addToSums g k₀ v).map Prod.fst).Nodup := by
  rw [keys_addToSums]
  by_cases h : k₀ ∈ g.map Prod.fst
  · simpa [h] using hnd
  · rw [if_neg h, List.nodup_append]
    refine ⟨hnd, List.nodup_singleton _, ?_⟩
    intro a ha hb
    rw [List.mem_singleton] at hb
    subst hb
    exact h ha

theorem lookupSum_eq_of_mem {K : Type} [DecidableEq K]
    {g : List (K × Nat)} (hnd : (g.map Prod.fst).Nodup) {k : K} {n : Nat}
    (h : (k, n) ∈ g) : lookupSum k g = n := by
  induction g with
  | nil => simp at h
  | cons hd tl ih =>
    obtain ⟨k', n'⟩ := hd
    rw [List.map_cons, List.nodup_cons] at hnd
    rcases List.mem_cons.mp h with h1 | h1
    · injection h1.symm with hk hv
      subst hk; subst hv
      simp [lookupSum]
    · have hk : k' ≠ k := by
        intro he
        subst he
        exact hnd.1 (List.mem_map.mpr ⟨(k', n), h1, rfl⟩)
      simp only [lookupSum, if_neg hk]
      exact ih hnd.2 h1

/-- The shape of the dict-accumulation loops over items that may or may not
contribute a key (the folder rules and the tree builder's `dir_map`). -/
theorem lookupSum_foldl_opt {α K : Type} [DecidableEq K]
    (keyFn : α → Option K) (valFn : α → Nat)
    (items : List α) (g : List (K × Nat)) (k : K) :
    lookupSum k (items.foldl (fun g a =>
        (keyFn a).elim g (fun k' => addToSums g k' (valFn a))) g) =
      lookupSum k g +
        ((items.filter (fun a => keyFn a = some k)).map valFn).sum := by
  induction items generalizing g with
  | nil => simp
  | cons hd tl ih =>
    rw [List.foldl_cons]
    rcases hk : keyFn hd with _ | k'
    · simp only [hk, Option.elim_none, ih, List.filter_cons]
      simp [hk]
    · simp only [hk, Option.elim_some, ih, lookupSum_addToSums, List.filter_cons]
      by_cases h : k = k'
      · subst h
        simp [hk, Nat.add_assoc, Nat.add_comm (valFn hd)]
      · have hne : ¬ (k' = k) := fun he => h he.symm
        simp [hk, hne, h]

theorem keys_mem_foldl_sums_opt {α K : Type} [DecidableEq K]
    (keyFn : α → Option K) (valFn : α → Nat)
    (items : List α) (g : List (K × Nat)) (k : K) :
    (k ∈ (items.foldl (fun g a =>
        (keyFn a).elim g (fun k' => addToSums g k' (valFn a))) g).map Prod.fst) ↔
      (k ∈ g.map Prod.fst ∨ ∃ a ∈ items, keyFn a = some k) := by
  induction items generalizing g with
  | nil => simp
  | cons hd tl ih =>
    rw [List.foldl_cons]
    rcases hk : keyFn hd with _ | k'
    · simp only [hk, Option.elim_none]
      rw [ih]
      constructor
      · rintro (h1 | ⟨a, ha, h2⟩)
        · exact Or.inl h1
        · exact Or.inr ⟨a, List.mem_cons_of_mem _ ha, h2⟩
      · rintro (h1 | ⟨a, ha, h2⟩)
        · exact Or.inl h1
        · rcases List.mem_cons.mp ha with h3 | h3
          · subst h3
            rw [hk] at h2
            exact absurd h2 (by simp)
          · exact Or.inr ⟨a, h3, h2⟩
    · simp only [hk, Option.elim_some]
      rw [ih, keys_addToSums]
      by_cases h : k' ∈ g.map Prod.fst
      · rw [if_pos h]
        constructor
        · rintro (h1 | ⟨a, ha, h2⟩)
          · exact Or.inl h1
          · exact Or.inr ⟨a, List.mem_cons_of_mem _ ha, h2⟩
        · rintro (h1 | ⟨a, ha, h2⟩)
          · exact Or.inl h1
          · rcases List.mem_cons.mp ha with h3 | h3
            · subst h3
              rw [hk] at h2
              injection h2 with h2
              subst h2
              exact Or.inl h
            · exact Or.inr ⟨a, h3, h2⟩
      · rw [if_neg h]
        constructor
        · rintro (h1 | ⟨a, ha, h2⟩)
          · rcases List.mem_append.mp h1 with h3 | h3
            · exact Or.inl h3
            · rw [List.mem_singleton] at h3
              subst h3
              exact Or.inr ⟨hd, List.mem_cons_self _ _, hk⟩
          · exact Or.inr ⟨a, List.mem_cons_of_mem _ ha, h2⟩
        · rintro (h1 | ⟨a, ha, h2⟩)
          · exact Or.inl (List.mem_append.mpr (Or.inl h1))
          · rcases List.mem_cons.mp ha with h3 | h3
            · subst h3
              rw [hk] at h2
              injection h2 with h2
              subst h2
              exact Or.inl (List.mem_append.mpr (Or.inr (List.mem_singleton.mpr rfl)))
            · exact Or.inr ⟨a, h3, h2⟩

theorem nodup_keys_foldl_sums_opt {α K : Type} [DecidableEq K]
    (keyFn : α → Option K) (valFn : α → Nat)
    (items : List α) {g : List (K × Nat)} (hnd : (g.map Prod.fst).Nodup) :
    ((items.foldl (fun g a =>
        (keyFn a).elim g (fun k' => addToSums g k' (valFn a))) g).map Prod.fst).Nodup := by
  induction items generalizing g with
  | nil => simpa
  | cons hd tl ih =>
    rw [List.foldl_cons]
    rcases hk : keyFn hd with _ | k'
    · simp only [hk, Option.elim_none]
      exact ih hnd
    · simp only [hk, Option.elim_some]
      exact ih (nodup_keys_addToSums hnd k' (valFn hd))

/-!
## Characterization of the MD5 grouping
-/

theorem groupByKey_eq_foldl_pairs (key : FileRec → List Char) (cat : Catalog) :
    groupByKey key cat =
      (cat.map (fun r => (key r, r))).foldl (fun g kv => addToGroups g kv.1 kv.2) [] := by
  rw [List.foldl_map]
  rfl

theorem nodup_keys_groupByKey (key : FileRec → List Char) (cat : Catalog) :
    ((groupByKey key cat).map Prod.fst).Nodup := by
  rw [groupByKey_eq_foldl_pairs]
  exact nodup_keys_foldl_groups _ (by simp)

theorem lookupGroup_groupByKey (key : FileRec → List Char) (cat : Catalog)
    (k : List Char) :
    lookupGroup k (groupByKey key cat) = cat.filter (fun r => key r = k) := by
  rw [groupByKey_eq_foldl_pairs, lookupGroup_foldl]
  simp only [lookupGroup, List.nil_append, List.filter_map, List.map_map]
  rw [show (Prod.snd ∘ fun r : FileRec => (key r, r)) = id from rfl, List.map_id]
  rfl

theorem group_eq_of_mem_groupByKey {key : FileRec → List Char} {cat : Catalog}
    {k : List Char} {rs : List FileRec} (h : (k, rs) ∈ groupByKey key cat) :
    rs = cat.filter (fun r => key r = k) := by
  rw [← lookupGroup_eq_of_mem (nodup_keys_groupByKey key cat) h,
    lookupGroup_groupByKey]

theorem mem_keys_groupByKey_iff (key : FileRec → List Char) (cat : Catalog)
    (k : List Char) :
    (k ∈ (groupByKey key cat).map Prod.fst) ↔ ∃ r ∈ cat, key r = k := by
  rw [groupByKey_eq_foldl_pairs, keys_mem_foldl_groups]
  simp [List.mem_map]

/-!
## Claims C9 and C1
-/

/-- C9: on a catalog with zero records, a tree request for any path —
the root request `getTreeStructure [] []` included — returns the requested
path with an empty children list; the EmptyCatalog condition is reported
as an empty result, not an error. -/
theorem C9_empty_catalog_returns_empty_children (path0 : List Char) :
    getTreeStructure [] path0 = { path := path0, children := [] } := rfl

/-- C1: the claim says each candidate/verified duplicate group's
`wasted_space` is `(count - 1) * size` of a member (`specWastedSpace`);
the code computes `SUM(size_bytes)` — the whole group's size, one copy
not subtracted.  On a catalog of two byte-identical 100-byte files both
views report `wasted_space = 200` where the claim requires `100`. -/
theorem C1_wasted_space_counts_all_copies :
    getDuplicates c1Cat =
      [{ md5_hash := pstr "m", count := 2, wasted_space := 200,
         paths := [pstr "/p1", pstr "/p2"] }] ∧
    getVerifiedDuplicates c1Cat =
      [{ sha256_hash := pstr "s", count := 2, wasted_space := 200,
         paths := [pstr "/p1", pstr "/p2"], verified := true }] ∧
    specWastedSpace 2 100 = 100 ∧ (200 : Nat) ≠ 100 := by decide

/-!
## Claim C8: the SHA256 write path
-/

theorem updateSha256Hash_forall₂ (db : Catalog) (file_id : Nat) (sha : List Char) :
    List.Forall₂ (UpdateRel file_id sha) db (updateSha256Hash db file_id sha) := by
  rw [updateSha256Hash, List.forall₂_map_right_iff]
  rw [List.forall₂_same]
  intro r _
  by_cases h : r.id = file_id
  · refine ⟨?_, fun hne => absurd h hne, fun _ => ?_⟩
    · simp [h, SameNonShaFields]
    · simp [h]
  · refine ⟨?_, fun _ => ?_, fun he => absurd he h⟩
    · simp [h, SameNonShaFields]
    · simp [h]

theorem forall₂_mem_right {α β : Type} {R : α → β → Prop} {l₁ : List α}
    {l₂ : List β} (h : List.Forall₂ R l₁ l₂) :
    ∀ b ∈ l₂, ∃ a ∈ l₁, R a b := by
  induction h with
  | nil => simp
  | cons hr _ ih =>
    intro b hb
    rcases List.mem_cons.mp hb with h1 | h1
    · exact ⟨_, List.mem_cons_self _ _, h1 ▸ hr⟩
    · obtain ⟨a, ha, har⟩ := ih b h1
      exact ⟨a, List.mem_cons_of_mem _ ha, har⟩

theorem updateSha256Hash_invariant {db : Catalog} (file_id : Nat) (sha : List Char)
    (hinv : ShaInvariant db) : ShaInvariant (updateSha256Hash db file_id sha) := by
  intro r' hr' hv
  obtain ⟨r, hr, hrel⟩ := forall₂_mem_right (updateSha256Hash_forall₂ db file_id sha) r' hr'
  by_cases h : r.id = file_id
  · rw [(hrel.2.2 h).1]
    simp
  · rw [hrel.2.1 h] at hv ⊢
    exact hinv r hr hv

theorem computeMultiple_success_sha (fs : List Char → Option (List Char))
    (hashFn : List Char → List Char) (paths : List (List Char)) :
    ∀ res ∈ computeMultiple fs hashFn paths, res.success = true →
      ∃ c, fs res.path = some c ∧ res.sha256 = some (hashFn c) := by
  intro res hres hsucc
  obtain ⟨p, _, hp⟩ := List.mem_map.mp hres
  rcases hfp : fs p with _ | c
  · rw [← hp] at hsucc
    simp [hashOne, hfp] at hsucc
  · refine ⟨c, ?_, ?_⟩ <;> rw [← hp] <;> simp [hashOne, hfp]

theorem verify_foldl_forall₂ (fs : List Char → Option (List Char))
    (hashFn : List Char → List Char) (ids : List Nat)
    (irs : List (Nat × HashResult))
    (hsha : ∀ ir ∈ irs, ir.2.success = true →
      ∃ c, fs ir.2.path = some c ∧ ir.2.sha256 = some (hashFn c))
    (db d : Catalog) (hd : List.Forall₂ (VerifyRel fs hashFn) db d) :
    List.Forall₂ (VerifyRel fs hashFn) db
      (irs.foldl (fun d ir =>
        if ir.2.success then updateSha256Hash d (ids.getD ir.1 0) (ir.2.sha256.getD [])
        else d) d) := by
  induction irs generalizing d with
  | nil => exact hd
  | cons ir tl ih =>
    rw [List.foldl_cons]
    refine ih (fun x hx => hsha x (List.mem_cons_of_mem _ hx)) _ ?_
    by_cases hs : ir.2.success
    · rw [if_pos hs]
      obtain ⟨c, hc, hsha'⟩ := hsha ir (List.mem_cons_self _ _) hs
      rw [updateSha256Hash, List.forall₂_map_right_iff]
      refine hd.imp (fun r r' hrel => ?_)
      by_cases hid : r'.id = ids.getD ir.1 0
      · rw [if_pos hid]
        refine ⟨hrel.1, Or.inr ⟨rfl, c, ir.2.path, hc, ?_⟩⟩
        simp [hsha']
      · rw [if_neg hid]
        exact hrel
    · rw [if_neg hs]
      exact hd

/-- C8: the invariant `sha256_verified = true → sha256_hash` non-null is
preserved by every operation of the engine.  The only write path,
`update_sha256_hash`, relates old and new catalogs record-by-record
(`UpdateRel`): it neither inserts nor deletes, leaves every non-SHA field
and every other record untouched, and sets the two SHA fields together;
the verification endpoint invokes it only with successfully computed
hashes (`VerifyRel`), and both operations preserve the invariant. -/
theorem C8_update_writes_only_sha_fields :
    (∀ (db : Catalog) (file_id : Nat) (sha : List Char),
      List.Forall₂ (UpdateRel file_id sha) db (updateSha256Hash db file_id sha)) ∧
    (∀ (db : Catalog) (file_id : Nat) (sha : List Char),
      ShaInvariant db → ShaInvariant (updateSha256Hash db file_id sha)) ∧
    (∀ (fs : List Char → Option (List Char)) (hashFn : List Char → List Char)
      (db : Catalog) (md5 : List Char) (ids : List Nat) (paths : List (List Char)),
      List.Forall₂ (VerifyRel fs hashFn) db
        (verifyDuplicates fs hashFn db md5 ids paths).2) ∧
    (∀ (fs : List Char → Option (List Char)) (hashFn : List Char → List Char)
      (db : Catalog) (md5 : List Char) (ids : List Nat) (paths : List (List Char)),
      ShaInvariant db → ShaInvariant (verifyDuplicates fs hashFn db md5 ids paths).2) := by
  have hver : ∀ (fs : List Char → Option (List Char)) (hashFn : List Char → List Char)
      (db : Catalog) (md5 : List Char) (ids : List Nat) (paths : List (List Char)),
      List.Forall₂ (VerifyRel fs hashFn) db
        (verifyDuplicates fs hashFn db md5 ids paths).2 := by
    intro fs hashFn db md5 ids paths
    have hsha : ∀ ir ∈ (computeMultiple fs hashFn paths).enum, ir.2.success = true →
        ∃ c, fs ir.2.path = some c ∧ ir.2.sha256 = some (hashFn c) := by
      intro ir hir
      have : ir.2 ∈ computeMultiple fs hashFn paths := by
        rw [← List.enum_map_snd (computeMultiple fs hashFn paths)]
        exact List.mem_map.mpr ⟨ir, hir, rfl⟩
      exact computeMultiple_success_sha fs hashFn paths ir.2 this
    have hrefl : List.Forall₂ (VerifyRel fs hashFn) db db :=
      List.forall₂_same.mpr (fun r _ =>
        ⟨⟨rfl, rfl, rfl, rfl, rfl, rfl, rfl, rfl⟩, Or.inl rfl⟩)
    exact verify_foldl_forall₂ fs hashFn ids _ hsha db db hrefl
  refine ⟨updateSha256Hash_forall₂, fun db i sha => updateSha256Hash_invariant i sha,
    hver, ?_⟩
  intro fs hashFn db md5 ids paths hinv r' hr' hv
  obtain ⟨r, hr, hrel⟩ := forall₂_mem_right (hver fs hashFn db md5 ids paths) r' hr'
  rcases hrel.2 with h | h
  · rw [h] at hv ⊢
    exact hinv r hr hv
  · obtain ⟨_, c, p, _, hsome⟩ := h
    rw [hsome]
    simp

/-- Witness for C8 at a concrete catalog and verification request. -/
theorem C8_update_writes_only_sha_fields_witness :
    ShaInvariant cVerifyDb ∧
    ShaInvariant (updateSha256Hash cVerifyDb 1 (pstr "h")) ∧
    ShaInvariant ((verifyDuplicates cFs cHash cVerifyDb (pstr "m") [1, 2, 3]
      [pstr "/f/g1", pstr "/f/g2", pstr "/f/bad"]).2) := by
  have h0 : ShaInvariant cVerifyDb :=
    show ∀ r ∈ cVerifyDb, r.sha256_verified = true → r.sha256_hash ≠ none by decide
  exact ⟨h0, C8_update_writes_only_sha_fields.2.1 cVerifyDb 1 (pstr "h") h0,
    C8_update_writes_only_sha_fields.2.2.2 cFs cHash cVerifyDb (pstr "m") [1, 2, 3]
      [pstr "/f/g1", pstr "/f/g2", pstr "/f/bad"] h0⟩

/-!
## Claims C2 and C3: the verification endpoint
-/

theorem foldl_groups_skip_eq {α K V : Type} [DecidableEq K]
    (p : α → Bool) (keyFn : α → K) (valFn : α → V) (items : List α)
    (g : List (K × List V)) :
    items.foldl (fun g a => if p a then addToGroups g (keyFn a) (valFn a) else g) g =
      ((items.filter p).map (fun a => (keyFn a, valFn a))).foldl
        (fun g kv => addToGroups g kv.1 kv.2) g := by
  induction items generalizing g with
  | nil => rfl
  | cons hd tl ih =>
    rw [List.foldl_cons, List.filter_cons]
    by_cases h : p hd
    · rw [if_pos h, if_pos h, List.map_cons, List.foldl_cons]
      exact ih _
    · rw [if_neg h, if_neg h]
      exact ih _

theorem nodup_keys_verifyGroupsAcc (fs : List Char → Option (List Char))
    (hashFn : List Char → List Char) (ids : List Nat) (paths : List (List Char)) :
    ((verifyGroupsAcc fs hashFn ids paths).map Prod.fst).Nodup := by
  rw [verifyGroupsAcc, foldl_groups_skip_eq]
  exact nodup_keys_foldl_groups _ (by simp)


theorem map_filter_congr_ptwise {α β : Type} {F G : α → β} {P Q : α → Bool}
    (hF : ∀ a, P a = true → F a = G a) (hPQ : ∀ a, P a = Q a) (l : List α) :
    (l.filter P).map F = (l.filter Q).map G := by
  induction l with
  | nil => rfl
  | cons hd tl ih =>
    rw [List.filter_cons, List.filter_cons, ← hPQ hd]
    by_cases h : P hd = true
    · simp only [if_pos h, List.map_cons]
      rw [hF hd h, ih]
    · simp only [if_neg h]
      exact ih

theorem lookupGroup_verifyGroupsAcc (fs : List Char → Option (List Char))
    (hashFn : List Char → List Char) (ids : List Nat) (paths : List (List Char))
    (k : List Char) :
    lookupGroup k (verifyGroupsAcc fs hashFn ids paths) =
      successesWithHash fs hashFn ids paths k := by
  rw [verifyGroupsAcc, foldl_groups_skip_eq, lookupGroup_foldl]
  simp only [computeMultiple, List.enum_map, List.filter_map, List.map_map,
    List.filter_filter, lookupGroup, List.nil_append, successesWithHash]
  refine map_filter_congr_ptwise (fun a _ => ?_) (fun a => ?_) paths.enum
  · rcases hfp : fs a.2 with _ | c <;> simp [Function.comp, Prod.map, hashOne, hfp]
  · rcases hfp : fs a.2 with _ | c <;> simp [Function.comp, Prod.map, hashOne, hfp]

theorem values_nonempty_addToGroups {K V : Type} [DecidableEq K]
    {g : List (K × List V)} (hg : ∀ kv ∈ g, kv.2 ≠ []) (k : K) (v : V) :
    ∀ kv ∈ addToGroups g k v, kv.2 ≠ [] := by
  induction g with
  | nil =>
    intro kv hkv
    rcases List.mem_cons.mp hkv with h | h
    · subst h; simp
    · simp at h
  | cons hd tl ih =>
    obtain ⟨k', vs⟩ := hd
    intro kv hkv
    by_cases h1 : k = k'
    · rw [addToGroups, if_pos h1] at hkv
      rcases List.mem_cons.mp hkv with h | h
      · subst h; simp
      · exact hg kv (List.mem_cons_of_mem _ h)
    · rw [addToGroups, if_neg h1] at hkv
      rcases List.mem_cons.mp hkv with h | h
      · subst h
        exact hg (k', vs) (List.mem_cons_self _ _)
      · exact ih (fun kv hkv => hg kv (List.mem_cons_of_mem _ hkv)) kv h

theorem values_nonempty_verifyGroupsAcc (fs : List Char → Option (List Char))
    (hashFn : List Char → List Char) (ids : List Nat) (paths : List (List Char)) :
    ∀ kv ∈ verifyGroupsAcc fs hashFn ids paths, kv.2 ≠ [] := by
  rw [verifyGroupsAcc]
  generalize (computeMultiple fs hashFn paths).enum = irs
  have : ∀ (g : List (List Char × List VerifyFileEntry)), (∀ kv ∈ g, kv.2 ≠ []) →
      ∀ kv ∈ irs.foldl (fun g ir =>
        if ir.2.success then
          addToGroups g (ir.2.sha256.getD []) ⟨ir.2.path, ids.getD ir.1 0⟩
        else g) g, kv.2 ≠ [] := by
    induction irs with
    | nil => intro g hg; exact hg
    | cons hd tl ih =>
      intro g hg
      rw [List.foldl_cons]
      by_cases h : hd.2.success
      · rw [if_pos h]
        exact ih _ (values_nonempty_addToGroups hg _ _)
      · rw [if_neg h]
        exact ih _ hg
  exact this [] (by simp)

theorem mem_successesWithHash {fs : List Char → Option (List Char)}
    {hashFn : List Char → List Char} {ids : List Nat} {paths : List (List Char)}
    {k : List Char} {f : VerifyFileEntry}
    (h : f ∈ successesWithHash fs hashFn ids paths k) :
    ∃ c, fs f.path = some c ∧ hashFn c = k := by
  obtain ⟨ip, hip, hf⟩ := List.mem_map.mp h
  have hpred := (List.mem_filter.mp hip).2
  rcases hfp : fs ip.2 with _ | c
  · rw [hfp] at hpred
    simp at hpred
  · rw [hfp] at hpred
    refine ⟨c, ?_, by simpa using hpred⟩
    rw [← hf]
    exact hfp

theorem mem_enum_getD {α : Type} {l : List α} {i : Nat} (h : i < l.length)
    (d : α) : (i, l.getD i d) ∈ l.enum := by
  rw [List.mem_enum_iff_getElem?]
  rw [List.getD_eq_getElem?_getD, List.getElem?_eq_getElem h]
  rfl

theorem success_mem_own_group (fs : List Char → Option (List Char))
    (hashFn : List Char → List Char) (db : Catalog) (md5 : List Char)
    (ids : List Nat) (paths : List (List Char))
    (i : Nat) (hi : i < paths.length) (c : List Char)
    (hc : fs (paths.getD i []) = some c) :
    ∃ g ∈ (verifyDuplicates fs hashFn db md5 ids paths).1.verified_groups,
      g.sha256_hash = hashFn c ∧
      ({ path := paths.getD i [], file_id := ids.getD i 0 } : VerifyFileEntry)
        ∈ g.files := by
  have hvg : (verifyDuplicates fs hashFn db md5 ids paths).1.verified_groups =
      (verifyGroupsAcc fs hashFn ids paths).map
        (fun g => { sha256_hash := g.1, files := g.2,
                    is_duplicate := decide (g.2.length > 1), count := g.2.length }) := rfl
  have hkey : (hashFn c) ∈ (verifyGroupsAcc fs hashFn ids paths).map Prod.fst := by
    rw [verifyGroupsAcc, foldl_groups_skip_eq, keys_mem_foldl_groups]
    right
    rw [List.map_map]
    refine List.mem_map.mpr ⟨(i, hashOne fs hashFn (paths.getD i [])), ?_, ?_⟩
    · refine List.mem_filter.mpr ⟨?_, ?_⟩
      · rw [computeMultiple, List.enum_map]
        exact List.mem_map.mpr ⟨(i, paths.getD i []), mem_enum_getD hi [], rfl⟩
      · show (hashOne fs hashFn (paths.getD i [])).success = true
        simp only [hashOne, hc]
    · show (hashOne fs hashFn (paths.getD i [])).sha256.getD [] = hashFn c
      simp only [hashOne, hc, Option.getD_some]
  refine ⟨{ sha256_hash := hashFn c,
            files := lookupGroup (hashFn c) (verifyGroupsAcc fs hashFn ids paths),
            is_duplicate := decide ((lookupGroup (hashFn c)
              (verifyGroupsAcc fs hashFn ids paths)).length > 1),
            count := (lookupGroup (hashFn c)
              (verifyGroupsAcc fs hashFn ids paths)).length }, ?_, rfl, ?_⟩
  · rw [hvg]
    exact List.mem_map.mpr ⟨_, mem_of_lookupGroup hkey, rfl⟩
  · show _ ∈ lookupGroup (hashFn c) (verifyGroupsAcc fs hashFn ids paths)
    rw [lookupGroup_verifyGroupsAcc, successesWithHash]
    refine List.mem_map.mpr ⟨(i, paths.getD i []), ?_, rfl⟩
    refine List.mem_filter.mpr ⟨mem_enum_getD hi [], ?_⟩
    show (match fs (paths.getD i []) with
      | some c1 => decide (hashFn c1 = hashFn c)
      | none => false) = true
    simp only [hc]
    simp

/-- C2: the endpoint's `verified_groups` partitions the successfully
hashed requested files by their freshly computed SHA256 (not by MD5):
each group's `files` are exactly the successes with that digest in request
order, `count` is the member count, `is_duplicate = (count > 1)`, group
keys are pairwise distinct and non-empty, every success lands in the group
of its own fresh digest, and — the digest being collision-free — members
of one group have equal file contents, so two requested records with
differing contents land in different groups. -/
theorem C2_regroup_by_fresh_sha256 (fs : List Char → Option (List Char))
    (hashFn : List Char → List Char) (db : Catalog) (md5 : List Char)
    (ids : List Nat) (paths : List (List Char))
    (hlen : ids.length = paths.length) :
    (∀ g ∈ (verifyDuplicates fs hashFn db md5 ids paths).1.verified_groups,
       g.count = g.files.length ∧
       g.is_duplicate = decide (g.files.length > 1) ∧
       g.files = successesWithHash fs hashFn ids paths g.sha256_hash ∧
       g.files ≠ []) ∧
    (((verifyDuplicates fs hashFn db md5 ids paths).1.verified_groups.map
        (fun g => g.sha256_hash)).Nodup) ∧
    (∀ i, i < paths.length → ∀ c, fs (paths.getD i []) = some c →
       ∃ g ∈ (verifyDuplicates fs hashFn db md5 ids paths).1.verified_groups,
         g.sha256_hash = hashFn c ∧
         ({ path := paths.getD i [], file_id := ids.getD i 0 } : VerifyFileEntry)
           ∈ g.files) ∧
    (Function.Injective hashFn →
      ∀ g ∈ (verifyDuplicates fs hashFn db md5 ids paths).1.verified_groups,
        ∀ f1 ∈ g.files, ∀ f2 ∈ g.files, fs f1.path = fs f2.path) := by
  have hvg : (verifyDuplicates fs hashFn db md5 ids paths).1.verified_groups =
      (verifyGroupsAcc fs hashFn ids paths).map
        (fun g => { sha256_hash := g.1, files := g.2,
                    is_duplicate := decide (g.2.length > 1), count := g.2.length }) := rfl
  have hmain : ∀ g ∈ (verifyDuplicates fs hashFn db md5 ids paths).1.verified_groups,
      g.count = g.files.length ∧
      g.is_duplicate = decide (g.files.length > 1) ∧
      g.files = successesWithHash fs hashFn ids paths g.sha256_hash ∧
      g.files ≠ [] := by
    intro g hg
    rw [hvg] at hg
    obtain ⟨⟨k, vs⟩, hmem, hgdef⟩ := List.mem_map.mp hg
    subst hgdef
    refine ⟨rfl, rfl, ?_, ?_⟩
    · show vs = successesWithHash fs hashFn ids paths k
      rw [← lookupGroup_eq_of_mem (nodup_keys_verifyGroupsAcc fs hashFn ids paths) hmem]
      exact lookupGroup_verifyGroupsAcc fs hashFn ids paths k
    · exact values_nonempty_verifyGroupsAcc fs hashFn ids paths (k, vs) hmem
  refine ⟨hmain, ?_, ?_, ?_⟩
  · rw [hvg, List.map_map]
    exact nodup_keys_verifyGroupsAcc fs hashFn ids paths
  · intro i hi c hc
    exact success_mem_own_group fs hashFn db md5 ids paths i hi c hc
  · intro hinj g hg f1 hf1 f2 hf2
    obtain ⟨_, _, hfiles, _⟩ := hmain g hg
    rw [hfiles] at hf1 hf2
    obtain ⟨c1, hc1, hk1⟩ := mem_successesWithHash hf1
    obtain ⟨c2, hc2, hk2⟩ := mem_successesWithHash hf2
    have : c1 = c2 := hinj (by rw [hk1, hk2])
    rw [hc1, hc2, this]

/-- Witness for C2 at a concrete request: two readable files with distinct
contents plus one unreadable path. -/
theorem C2_regroup_by_fresh_sha256_witness :
    ([1, 2, 3] : List Nat).length =
      [pstr "/f/g1", pstr "/f/g2", pstr "/f/bad"].length ∧
    (((verifyDuplicates cFs cHash cVerifyDb (pstr "m") [1, 2, 3]
        [pstr "/f/g1", pstr "/f/g2", pstr "/f/bad"]).1.verified_groups.map
        (fun g => g.sha256_hash)).Nodup) :=
  ⟨by decide,
    (C2_regroup_by_fresh_sha256 cFs cHash cVerifyDb (pstr "m") [1, 2, 3]
      [pstr "/f/g1", pstr "/f/g2", pstr "/f/bad"] (by decide)).2.1⟩

/-- C3 as stated is false: the failing file is counted but never itemized.
For the concrete request of two readable files and the unreadable
`/f/bad`, the response reports `failed = 1` yet no group of
`verified_groups` mentions `/f/bad` — the response carries no per-file
failure entry or reason (its type has no field for them), so the failing
file is not "reported in the response with a failure reason". -/
theorem C3_failing_file_absent_from_response :
    (verifyDuplicates cFs cHash cVerifyDb (pstr "m") [1, 2, 3]
      [pstr "/f/g1", pstr "/f/g2", pstr "/f/bad"]).1.total_files = 3 ∧
    (verifyDuplicates cFs cHash cVerifyDb (pstr "m") [1, 2, 3]
      [pstr "/f/g1", pstr "/f/g2", pstr "/f/bad"]).1.failed = 1 ∧
    (∀ g ∈ (verifyDuplicates cFs cHash cVerifyDb (pstr "m") [1, 2, 3]
        [pstr "/f/g1", pstr "/f/g2", pstr "/f/bad"]).1.verified_groups,
      ∀ f ∈ g.files, f.path ≠ pstr "/f/bad") := by decide

theorem getD_map_lt {α β : Type} (f : α → β) (l : List α) (i : Nat)
    (h : i < l.length) (d : β) (d' : α) :
    (l.map f).getD i d = f (l.getD i d') := by
  rw [List.getD_eq_getElem?_getD, List.getD_eq_getElem?_getD,
    List.getElem?_eq_getElem (show i < (l.map f).length by simpa),
    List.getElem?_eq_getElem h]
  simp

theorem verify_foldl_frame (ids : List Nat) (irs : List (Nat × HashResult))
    (d : Catalog) (j : Nat) (d0 : FileRec) (hj : j < d.length)
    (hno : ∀ ir ∈ irs, ir.2.success = true → ids.getD ir.1 0 ≠ (d.getD j d0).id) :
    ((irs.foldl (fun d ir =>
        if ir.2.success then updateSha256Hash d (ids.getD ir.1 0) (ir.2.sha256.getD [])
        else d) d).getD j d0 = d.getD j d0) ∧
    ((irs.foldl (fun d ir =>
        if ir.2.success then updateSha256Hash d (ids.getD ir.1 0) (ir.2.sha256.getD [])
        else d) d).length = d.length) := by
  induction irs generalizing d with
  | nil => exact ⟨rfl, rfl⟩
  | cons hd tl ih =>
    rw [List.foldl_cons]
    by_cases hs : hd.2.success
    · rw [if_pos hs]
      have hlen : (updateSha256Hash d (ids.getD hd.1 0) (hd.2.sha256.getD [])).length
          = d.length := by
        rw [updateSha256Hash, List.length_map]
      have helem : (updateSha256Hash d (ids.getD hd.1 0) (hd.2.sha256.getD [])).getD j d0
          = d.getD j d0 := by
        rw [updateSha256Hash, getD_map_lt _ _ _ hj _ d0,
          if_neg (Ne.symm (hno hd (List.mem_cons_self _ _) hs))]
      have := ih (updateSha256Hash d (ids.getD hd.1 0) (hd.2.sha256.getD []))
        (by rw [hlen]; exact hj)
        (by
          intro ir hir hirs
          rw [helem]
          exact hno ir (List.mem_cons_of_mem _ hir) hirs)
      rw [helem] at this
      rw [hlen] at this
      exact this
    · rw [if_neg hs]
      exact ih d hj (fun ir hir hirs => hno ir (List.mem_cons_of_mem _ hir) hirs)

/-- C3 amended: each file whose read/hash fails is captured in the hashing
results (`compute_multiple`) with a failure reason, is not marked
`sha256_verified` (its record is untouched when no success targets its
id), and does not prevent the other requested files from being hashed,
persisted and grouped; the response reports total files, successes and
failures as separate counts with `total = len(paths)` and
`successful + failed = total`.  (The failing files themselves are only
counted, not itemized, in the HTTP response — see the counterexample.) -/
theorem C3_amended_failure_isolation (fs : List Char → Option (List Char))
    (hashFn : List Char → List Char) (db : Catalog) (md5 : List Char)
    (ids : List Nat) (paths : List (List Char))
    (hlen : ids.length = paths.length) (d0 : FileRec) :
    (verifyDuplicates fs hashFn db md5 ids paths).1.total_files = paths.length ∧
    (verifyDuplicates fs hashFn db md5 ids paths).1.successful =
      paths.countP (fun p => (fs p).isSome) ∧
    (verifyDuplicates fs hashFn db md5 ids paths).1.failed =
      paths.countP (fun p => (fs p).isNone) ∧
    (verifyDuplicates fs hashFn db md5 ids paths).1.successful +
      (verifyDuplicates fs hashFn db md5 ids paths).1.failed =
      (verifyDuplicates fs hashFn db md5 ids paths).1.total_files ∧
    (∀ i, i < paths.length → fs (paths.getD i []) = none →
      (computeMultiple fs hashFn paths).getD i
          { path := [], sha256 := none, success := true, error := none } =
        { path := paths.getD i [], sha256 := none, success := false,
          error := some (pstr "Error hashing " ++ paths.getD i []) }) ∧
    (∀ i, i < paths.length → ∀ c, fs (paths.getD i []) = some c →
      ∃ g ∈ (verifyDuplicates fs hashFn db md5 ids paths).1.verified_groups,
        g.sha256_hash = hashFn c ∧
        ({ path := paths.getD i [], file_id := ids.getD i 0 } : VerifyFileEntry)
          ∈ g.files) ∧
    (∀ j, j < db.length →
      (∀ i, i < paths.length → ids.getD i 0 = (db.getD j d0).id →
        fs (paths.getD i []) = none) →
      (verifyDuplicates fs hashFn db md5 ids paths).2.getD j d0 = db.getD j d0) := by
  have hsucc : (verifyDuplicates fs hashFn db md5 ids paths).1.successful =
      paths.countP (fun p => (fs p).isSome) := by
    show (computeMultiple fs hashFn paths).countP (·.success) = _
    rw [computeMultiple, List.countP_map]
    refine List.countP_congr (fun p _ => ?_)
    rcases hfp : fs p with _ | c <;> simp [Function.comp, hashOne, hfp]
  have hfail : (verifyDuplicates fs hashFn db md5 ids paths).1.failed =
      paths.countP (fun p => (fs p).isNone) := by
    show (computeMultiple fs hashFn paths).countP (fun r => !r.success) = _
    rw [computeMultiple, List.countP_map]
    refine List.countP_congr (fun p _ => ?_)
    rcases hfp : fs p with _ | c <;> simp [Function.comp, hashOne, hfp]
  have htot : (verifyDuplicates fs hashFn db md5 ids paths).1.total_files =
      paths.length := by
    show (computeMultiple fs hashFn paths).length = _
    rw [computeMultiple, List.length_map]
  refine ⟨htot, hsucc, hfail, ?_, ?_, ?_, ?_⟩
  · rw [hsucc, hfail, htot, List.length_eq_countP_add_countP (fun p => (fs p).isSome)]
    congr 1
    refine List.countP_congr (fun p _ => ?_)
    rcases hfp : fs p with _ | c <;> simp [hfp]
  · intro i hi hnone
    rw [computeMultiple, getD_map_lt _ _ _ hi _ []]
    simp only [hashOne, hnone]
  · intro i hi c hc
    exact success_mem_own_group fs hashFn db md5 ids paths i hi c hc
  · intro j hj hno
    show ((computeMultiple fs hashFn paths).enum.foldl
      (fun d ir =>
        if ir.2.success then updateSha256Hash d (ids.getD ir.1 0) (ir.2.sha256.getD [])
        else d) db).getD j d0 = db.getD j d0
    refine (verify_foldl_frame ids _ db j d0 hj ?_).1
    intro ir hir hirs hid
    rw [List.mem_enum_iff_getElem?] at hir
    obtain ⟨hlt, hval⟩ := List.getElem?_eq_some.mp hir
    have hlt' : ir.1 < paths.length := by
      rw [computeMultiple, List.length_map] at hlt
      exact hlt
    have hval' : ir.2 = hashOne fs hashFn (paths.getD ir.1 []) := by
      rw [← hval]
      simp only [computeMultiple]
      rw [List.getElem_map]
      congr 1
      rw [List.getD_eq_getElem?_getD, List.getElem?_eq_getElem hlt']
      rfl
    have hnone := hno ir.1 hlt' hid
    rw [hval'] at hirs
    simp only [hashOne, hnone] at hirs
    exact absurd hirs (by decide)

/-- Witness for the amended C3 at the concrete request with one
unreadable file. -/
theorem C3_amended_failure_isolation_witness :
    ([1, 2, 3] : List Nat).length =
      [pstr "/f/g1", pstr "/f/g2", pstr "/f/bad"].length ∧
    (verifyDuplicates cFs cHash cVerifyDb (pstr "m") [1, 2, 3]
      [pstr "/f/g1", pstr "/f/g2", pstr "/f/bad"]).1.total_files =
      [pstr "/f/g1", pstr "/f/g2", pstr "/f/bad"].length :=
  ⟨by decide,
    (C3_amended_failure_isolation cFs cHash cVerifyDb (pstr "m") [1, 2, 3]
      [pstr "/f/g1", pstr "/f/g2", pstr "/f/bad"] (by decide)
      (mkRec 0 "" "" 0 "m")).1⟩

/-!
## Claim C10: splitting the concatenated paths and ids
-/

theorem splitOnSubFuel_congr (sep : List Char) :
    ∀ f1 f2 acc (s : List Char), f1 ≥ s.length + 1 → f2 ≥ s.length + 1 →
      splitOnSubFuel sep f1 acc s = splitOnSubFuel sep f2 acc s := by
  intro f1
  induction f1 with
  | zero => intro f2 acc s h1; omega
  | succ n ih =>
    intro f2 acc s h1 h2
    match s, f2 with
    | [], 0 => omega
    | [], m + 1 => rfl
    | c :: s', 0 => omega
    | c :: s', m + 1 =>
      rw [splitOnSubFuel, splitOnSubFuel]
      by_cases h : sep.isPrefixOf (c :: s') = true
      · rw [if_pos h, if_pos h]
        have hd : (List.drop (sep.length - 1) s').length ≤ s'.length := by
          rw [List.length_drop]; omega
        have hs : s'.length + 1 = (c :: s').length := rfl
        rw [ih m [] _ (by simp at h1 ⊢; omega) (by simp at h2 ⊢; omega)]
      · rw [if_neg h, if_neg h]
        exact ih m (c :: acc) s' (by simp at h1 ⊢; omega) (by simp at h2 ⊢; omega)

theorem isPrefixOf_cons_false {c0 x : Char} (sep' s' : List Char) (h : c0 ≠ x) :
    (c0 :: sep').isPrefixOf (x :: s') = false := by
  simp [List.isPrefixOf, h]

theorem splitOnSubFuel_clean (c0 : Char) (sep' : List Char) :
    ∀ (p : List Char), c0 ∉ p → ∀ acc fuel, fuel ≥ p.length + 1 →
      splitOnSubFuel (c0 :: sep') fuel acc p = [acc.reverse ++ p] := by
  intro p
  induction p with
  | nil =>
    intro _ acc fuel hf
    match fuel with
    | 0 => omega
    | f + 1 => simp [splitOnSubFuel]
  | cons x p' ih =>
    intro hp acc fuel hf
    match fuel with
    | 0 => simp at hf
    | f + 1 =>
      rw [splitOnSubFuel,
        if_neg (by
          rw [isPrefixOf_cons_false _ _ (fun he : c0 = x => hp (by rw [he]; exact List.mem_cons_self x p'))]
          simp)]
      rw [ih (fun hm => hp (List.mem_cons_of_mem _ hm)) (x :: acc) f (by simp at hf ⊢; omega)]
      simp

theorem splitOnSubFuel_boundary (c0 : Char) (sep' : List Char) :
    ∀ (p : List Char), c0 ∉ p → ∀ (tail : List Char) acc fuel,
      fuel ≥ p.length + sep'.length + tail.length + 2 →
      splitOnSubFuel (c0 :: sep') fuel acc (p ++ (c0 :: sep') ++ tail) =
        (acc.reverse ++ p) :: splitOnSubFuel (c0 :: sep') (tail.length + 1) [] tail := by
  intro p
  induction p with
  | nil =>
    intro _ tail acc fuel hf
    match fuel with
    | 0 => omega
    | f + 1 =>
      simp only [List.nil_append]
      rw [show ((c0 :: sep') ++ tail) = c0 :: (sep' ++ tail) from rfl]
      rw [splitOnSubFuel,
        if_pos (List.isPrefixOf_iff_prefix.mpr
          (show (c0 :: sep') <+: (c0 :: (sep' ++ tail)) from List.prefix_append _ _))]
      have hdrop : List.drop ((c0 :: sep').length - 1) (sep' ++ tail) = tail := by
        show List.drop (sep'.length + 1 - 1) (sep' ++ tail) = tail
        rw [Nat.add_sub_cancel, List.drop_left]
      rw [hdrop]
      rw [splitOnSubFuel_congr (c0 :: sep') f (tail.length + 1) [] tail
        (by simp at hf ⊢; omega) (by omega)]
      simp
  | cons x p' ih =>
    intro hp tail acc fuel hf
    match fuel with
    | 0 => omega
    | f + 1 =>
      rw [show ((x :: p') ++ (c0 :: sep') ++ tail) = x :: (p' ++ (c0 :: sep') ++ tail)
        by simp]
      rw [splitOnSubFuel,
        if_neg (by
          rw [isPrefixOf_cons_false _ _ (fun he : c0 = x => hp (by rw [he]; exact List.mem_cons_self x p'))]
          simp)]
      rw [ih (fun hm => hp (List.mem_cons_of_mem _ hm)) tail (x :: acc) f
        (by simp at hf ⊢; omega)]
      simp

theorem splitOnSub_intercalate (c0 : Char) (sep' : List Char) :
    ∀ (ps : List (List Char)), ps ≠ [] → (∀ p ∈ ps, c0 ∉ p) →
      splitOnSub (c0 :: sep') ((c0 :: sep').intercalate ps) = ps := by
  intro ps
  induction ps with
  | nil => intro h; exact absurd rfl h
  | cons p ps' ih =>
    intro _ hcl
    match ps' with
    | [] =>
      rw [show (c0 :: sep').intercalate [p] = p by simp [List.intercalate]]
      rw [splitOnSub, splitOnSubFuel_clean c0 sep' p
        (hcl p (List.mem_cons_self _ _)) [] (p.length + 1) (by omega)]
      simp
    | q :: rest =>
      have hint : (c0 :: sep').intercalate (p :: q :: rest) =
          p ++ (c0 :: sep') ++ (c0 :: sep').intercalate (q :: rest) := by
        simp [List.intercalate, List.intersperse]
      rw [hint, splitOnSub, splitOnSubFuel_boundary c0 sep' p
        (hcl p (List.mem_cons_self _ _)) _ [] _ (by simp; omega)]
      rw [show splitOnSubFuel (c0 :: sep') (((c0 :: sep').intercalate (q :: rest)).length + 1)
          [] ((c0 :: sep').intercalate (q :: rest)) =
          splitOnSub (c0 :: sep') ((c0 :: sep').intercalate (q :: rest)) from rfl]
      rw [ih (by simp) (fun x hx => hcl x (List.mem_cons_of_mem _ hx))]
      simp

theorem natReprAux_mem_digit :
    ∀ fuel n ch, ch ∈ natReprAux fuel n → ∃ d, d < 10 ∧ ch = digitChar d := by
  intro fuel
  induction fuel with
  | zero => intro n ch h; simp [natReprAux] at h
  | succ f ih =>
    intro n ch h
    rw [natReprAux] at h
    by_cases hn : n < 10
    · rw [if_pos hn] at h
      rw [List.mem_singleton] at h
      exact ⟨n, hn, h⟩
    · rw [if_neg hn] at h
      rcases List.mem_append.mp h with h1 | h1
      · exact ih (n / 10) ch h1
      · rw [List.mem_singleton] at h1
        exact ⟨n % 10, Nat.mod_lt _ (by omega), h1⟩

theorem digitChar_ne_comma {d : Nat} (hd : d < 10) : digitChar d ≠ ',' := by
  interval_cases d <;> decide

theorem natRepr_ne_nil (n : Nat) : natRepr n ≠ [] := by
  rw [natRepr, natReprAux]
  by_cases hn : n < 10
  · rw [if_pos hn]; simp
  · rw [if_neg hn]; simp

theorem comma_not_mem_natRepr (n : Nat) : ',' ∉ natRepr n := by
  intro h
  obtain ⟨d, hd, hch⟩ := natReprAux_mem_digit (n + 1) n ',' h
  exact digitChar_ne_comma hd hch.symm

theorem parseNat_append_digit (a : List Char) (ch : Char) :
    parseNat (a ++ [ch]) = parseNat a * 10 + (ch.toNat - 48) := by
  rw [parseNat, parseNat, List.foldl_append]
  rfl

theorem parseNat_natReprAux :
    ∀ fuel n, n < 10 ^ fuel → parseNat (natReprAux fuel n) = n := by
  intro fuel
  induction fuel with
  | zero =>
    intro n h
    have : n = 0 := by simpa using h
    subst this
    rfl
  | succ f ih =>
    intro n h
    rw [natReprAux]
    by_cases hn : n < 10
    · rw [if_pos hn]
      have : parseNat [digitChar n] = (digitChar n).toNat - 48 := by
        rw [show ([digitChar n] : List Char) = [] ++ [digitChar n] from rfl,
          parseNat_append_digit]
        show 0 * 10 + _ = _
        rw [Nat.zero_mul, Nat.zero_add]
      rw [this]
      interval_cases n <;> decide
    · rw [if_neg hn, parseNat_append_digit]
      have hdiv : n / 10 < 10 ^ f := by
        rw [Nat.div_lt_iff_lt_mul (by omega)]
        rw [pow_succ] at h
        exact h
      rw [ih (n / 10) hdiv]
      have hmod : (digitChar (n % 10)).toNat - 48 = n % 10 := by
        have h10 : n % 10 < 10 := Nat.mod_lt _ (by omega)
        set m := n % 10 with hm
        interval_cases m <;> decide
      rw [hmod]
      omega

theorem parseNat_natRepr (n : Nat) : parseNat (natRepr n) = n := by
  rw [natRepr]
  refine parseNat_natReprAux (n + 1) n ?_
  calc n < 10 ^ n := Nat.lt_pow_self (by norm_num) n
    _ ≤ 10 ^ (n + 1) := Nat.pow_le_pow_right (by norm_num) (Nat.le_succ n)

/-- C10 amended: on a catalog whose paths contain no `'|'` character, each
candidate group has exactly `count` paths and `count` ids — indeed exactly
the member paths and ids in row order — with `count ≥ 2`, and
`any_verified` holds exactly when some member is sha256-verified. -/
theorem C10_candidate_groups_consistent (cat : Catalog)
    (hp : ∀ r ∈ cat, '|' ∉ r.path) :
    ∀ g ∈ getDuplicateCandidates cat,
      2 ≤ g.count ∧
      g.paths.length = g.count ∧
      g.ids.length = g.count ∧
      g.paths = (cat.filter (fun r => r.md5_hash = g.md5_hash)).map (·.path) ∧
      g.ids = (cat.filter (fun r => r.md5_hash = g.md5_hash)).map (·.id) ∧
      (g.any_verified = true ↔
        ∃ r ∈ cat, r.md5_hash = g.md5_hash ∧ r.sha256_verified = true) := by
  intro g hg
  have hg' := (List.perm_insertionSort
    (fun a b : CandGroup => b.count ≤ a.count) _).mem_iff.mp hg
  obtain ⟨⟨k, rs⟩, hmem, hgdef⟩ := List.mem_map.mp hg'
  obtain ⟨h1, h2⟩ := List.mem_filter.mp hmem
  have hlen2 : 2 ≤ rs.length := by simpa using h2
  have hrs : rs = cat.filter (fun r => r.md5_hash = k) :=
    group_eq_of_mem_groupByKey h1
  have hsub : ∀ r ∈ rs, r ∈ cat := by
    intro r hr
    rw [hrs] at hr
    exact (List.mem_filter.mp hr).1
  -- paths
  have hclp : ∀ p ∈ rs.map (·.path), '|' ∉ p := by
    intro p hpm
    obtain ⟨r, hr, hrp⟩ := List.mem_map.mp hpm
    rw [← hrp]
    exact hp r (hsub r hr)
  have hpne : rs.map (·.path) ≠ [] := by
    intro h
    rw [List.map_eq_nil] at h
    rw [h] at hlen2
    simp at hlen2
  have hsplitp : splitOnSub (pstr "|||") (concatPaths rs) = rs.map (·.path) := by
    rw [show pstr "|||" = '|' :: ['|', '|'] from rfl]
    exact splitOnSub_intercalate '|' ['|', '|'] (rs.map (·.path)) hpne hclp
  have hjp : concatPaths rs ≠ [] := by
    intro hj
    rw [hj] at hsplitp
    have := congrArg List.length hsplitp
    rw [show splitOnSub (pstr "|||") [] = [[]] from rfl] at this
    simp at this
    omega
  -- ids
  have hcli : ∀ q ∈ rs.map (fun r => natRepr r.id), ',' ∉ q := by
    intro q hqm
    obtain ⟨r, _, hrq⟩ := List.mem_map.mp hqm
    rw [← hrq]
    exact comma_not_mem_natRepr r.id
  have hine : rs.map (fun r => natRepr r.id) ≠ [] := by
    intro h
    rw [List.map_eq_nil] at h
    rw [h] at hlen2
    simp at hlen2
  have hspliti : splitOnSub (pstr ",") (concatIds rs) =
      rs.map (fun r => natRepr r.id) := by
    rw [show pstr "," = ',' :: [] from rfl]
    exact splitOnSub_intercalate ',' [] (rs.map (fun r => natRepr r.id)) hine hcli
  have hji : concatIds rs ≠ [] := by
    intro hj
    rw [hj] at hspliti
    have := congrArg List.length hspliti
    rw [show splitOnSub (pstr ",") [] = [[]] from rfl] at this
    simp at this
    omega
  subst hgdef
  refine ⟨hlen2, ?_, ?_, ?_, ?_, ?_⟩
  · show (if concatPaths rs = [] then [] else splitOnSub (pstr "|||") (concatPaths rs)).length
      = rs.length
    rw [if_neg hjp, hsplitp, List.length_map]
  · show (if concatIds rs = [] then []
      else (splitOnSub (pstr ",") (concatIds rs)).map parseNat).length = rs.length
    rw [if_neg hji, hspliti, List.length_map, List.length_map]
  · show (if concatPaths rs = [] then [] else splitOnSub (pstr "|||") (concatPaths rs))
      = (cat.filter (fun r => r.md5_hash = k)).map (·.path)
    rw [if_neg hjp, hsplitp, hrs]
  · show (if concatIds rs = [] then []
      else (splitOnSub (pstr ",") (concatIds rs)).map parseNat)
      = (cat.filter (fun r => r.md5_hash = k)).map (·.id)
    rw [if_neg hji, hspliti, List.map_map, ← hrs]
    exact List.map_congr_left (fun r _ => parseNat_natRepr r.id)
  · show rs.any (·.sha256_verified) = true ↔
      ∃ r ∈ cat, r.md5_hash = k ∧ r.sha256_verified = true
    rw [List.any_eq_true]
    constructor
    · rintro ⟨r, hr, hv⟩
      refine ⟨r, hsub r hr, ?_, hv⟩
      rw [hrs] at hr
      have := (List.mem_filter.mp hr).2
      simpa using this
    · rintro ⟨r, hr, hmd5, hv⟩
      refine ⟨r, ?_, hv⟩
      rw [hrs]
      exact List.mem_filter.mpr ⟨hr, by simpa using hmd5⟩

/-- Witness for the amended C10 at a concrete pipe-free catalog. -/
theorem C10_candidate_groups_consistent_witness :
    (∀ r ∈ cVerifyDb, '|' ∉ r.path) ∧
    (∀ g ∈ getDuplicateCandidates cVerifyDb,
      2 ≤ g.count ∧
      g.paths.length = g.count ∧
      g.ids.length = g.count ∧
      g.paths = (cVerifyDb.filter (fun r => r.md5_hash = g.md5_hash)).map (·.path) ∧
      g.ids = (cVerifyDb.filter (fun r => r.md5_hash = g.md5_hash)).map (·.id) ∧
      (g.any_verified = true ↔
        ∃ r ∈ cVerifyDb, r.md5_hash = g.md5_hash ∧ r.sha256_verified = true)) :=
  ⟨by decide, C10_candidate_groups_consistent cVerifyDb (by decide)⟩

/-- C10 as stated is false: with the weaker hypothesis that no stored path
contains the substring `"|||"`, the counts can still break.  The paths
`a||` and `||b` contain no `"|||"`, yet their group's `paths` list has 3
elements while `count = 2`, because the `'|||'`-joined string
`a|||||||b` splits into three pieces. -/
theorem C10_pipe_runs_break_path_count :
    (∀ r ∈ c10Cat, containsSub (pstr "|||") r.path = false) ∧
    getDuplicateCandidates c10Cat =
      [{ md5_hash := pstr "m", count := 2,
         paths := [pstr "a", pstr "", pstr "|b"], ids := [1, 2],
         any_verified := false }] ∧
    ([pstr "a", pstr "", pstr "|b"].length = 3) ∧ (3 : Nat) ≠ 2 := by decide

/-!
## Claim C6: the root listing
-/

theorem getTree_root_children (sample : FileRec) (rest : List FileRec) :
    (getTreeStructure (sample :: rest) []).children =
      if '\\' ∈ sample.path then windowsRoots (sample :: rest)
      else unixRoots (sample :: rest) := by
  rw [getTreeStructure]
  by_cases h : '\\' ∈ sample.path
  · simp [h]
  · simp [h]

theorem unixRoots_length_le (cat : Catalog) : (unixRoots cat).length ≤ 20 := by
  simp only [unixRoots]
  rw [List.length_map]
  refine le_trans (List.length_filter_le _ _) ?_
  rw [List.length_take]
  omega

theorem windowsRoots_entries (cat : Catalog) :
    ∀ e ∈ windowsRoots cat,
      e.etype = pstr "dir" ∧ e.has_children = true ∧ e.size = 0 := by
  intro e he
  simp only [windowsRoots] at he
  obtain ⟨root, _, hre⟩ := List.mem_map.mp he
  rw [← hre]
  exact ⟨rfl, rfl, rfl⟩

theorem unixRoots_entries (cat : Catalog) :
    ∀ e ∈ unixRoots cat,
      e.etype = pstr "dir" ∧ e.has_children = true ∧ e.size = 0 := by
  intro e he
  simp only [unixRoots] at he
  obtain ⟨root, _, hre⟩ := List.mem_map.mp he
  rw [← hre]
  exact ⟨rfl, rfl, rfl⟩

/-- C6 as stated is false: the Windows branch of the root listing has no
`LIMIT`.  A backslash catalog with 21 distinct drive letters yields 21
root entries, exceeding the only cap in the code (the Unix branch's
`LIMIT 20`); one entry per distinct drive prefix, the entry count grows
with the catalog. -/
theorem C6_windows_root_listing_uncapped :
    (getTreeStructure c6WinCat []).children.length = 21 ∧ ¬ ((21 : Nat) ≤ 20) := by
  decide

/-- C6 amended: every root entry (either branch) is a directory with
`has_children = true` and `size = 0`, and slash-separated catalogs return
at most 20 root entries (`LIMIT 20`); backslash-separated catalogs have
no numeric cap. -/
theorem C6_amended_root_entries (cat : Catalog) :
    (∀ e ∈ (getTreeStructure cat []).children,
      e.etype = pstr "dir" ∧ e.has_children = true ∧ e.size = 0) ∧
    (∀ sample rest, cat = sample :: rest → '\\' ∉ sample.path →
      (getTreeStructure cat []).children.length ≤ 20) := by
  constructor
  · intro e he
    match cat with
    | [] => simp [getTreeStructure] at he
    | sample :: rest =>
      rw [getTree_root_children] at he
      by_cases h : '\\' ∈ sample.path
      · rw [if_pos h] at he
        exact windowsRoots_entries _ e he
      · rw [if_neg h] at he
        exact unixRoots_entries _ e he
  · intro sample rest hcat hsep
    subst hcat
    rw [getTree_root_children, if_neg hsep]
    exact unixRoots_length_le _

/-- Witness for the amended C6 at a concrete slash-separated catalog. -/
theorem C6_amended_root_entries_witness :
    ('\\' ∉ (mkRec 1 "/a/f" "f" 1 "m").path) ∧
    (getTreeStructure c6UnixCat []).children.length ≤ 20 :=
  ⟨by decide, (C6_amended_root_entries c6UnixCat).2 (mkRec 1 "/a/f" "f" 1 "m")
    [mkRec 2 "/b/g" "g" 2 "m"] rfl (by decide)⟩

/-!
## Claims C4 and C5: LIKE selection and the tree level
-/

theorem likeFuel_congr :
    ∀ f1 f2 (p s : List Char), f1 ≥ p.length + s.length + 1 →
      f2 ≥ p.length + s.length + 1 → likeFuel f1 p s = likeFuel f2 p s := by
  intro f1
  induction f1 with
  | zero => intro f2 p s h1; omega
  | succ n ih =>
    intro f2 p s h1 h2
    match p, s, f2 with
    | [], [], 0 => omega
    | [], [], m + 1 => rfl
    | [], c :: s', 0 => omega
    | [], c :: s', m + 1 => rfl
    | pc :: ps, s, 0 => omega
    | pc :: ps, [], m + 1 =>
      simp only [likeFuel]
      by_cases hp : pc = '%'
      · rw [if_pos hp, if_pos hp]
        have he1 : likeFuel n ps [] = likeFuel m ps [] := by
          refine ih m ps [] ?_ ?_ <;> simp at h1 h2 ⊢ <;> omega
        rw [he1]
      · rw [if_neg hp, if_neg hp]
    | pc :: ps, c :: s', m + 1 =>
      simp only [likeFuel]
      by_cases hp : pc = '%'
      · rw [if_pos hp, if_pos hp]
        have he1 : likeFuel n ps (c :: s') = likeFuel m ps (c :: s') := by
          refine ih m ps (c :: s') ?_ ?_ <;> simp at h1 h2 ⊢ <;> omega
        have he2 : likeFuel n ('%' :: ps) s' = likeFuel m ('%' :: ps) s' := by
          refine ih m ('%' :: ps) s' ?_ ?_ <;> simp at h1 h2 ⊢ <;> omega
        rw [he1, he2]
      · rw [if_neg hp, if_neg hp]
        by_cases hu : pc = '_'
        · rw [if_pos hu, if_pos hu]
          refine ih m ps s' ?_ ?_ <;> simp at h1 h2 ⊢ <;> omega
        · rw [if_neg hu, if_neg hu]
          have : likeFuel n ps s' = likeFuel m ps s' := by
            refine ih m ps s' ?_ ?_ <;> simp at h1 h2 ⊢ <;> omega
          rw [this]

theorem sqliteLike_pct_cons (ps : List Char) (c : Char) (s' : List Char) :
    sqliteLike ('%' :: ps) (c :: s') =
      (sqliteLike ps (c :: s') || sqliteLike ('%' :: ps) s') := by
  have h1 : sqliteLike ('%' :: ps) (c :: s') =
      (likeFuel (('%' :: ps).length + (c :: s').length) ps (c :: s') ||
       likeFuel (('%' :: ps).length + (c :: s').length) ('%' :: ps) s') := rfl
  rw [h1, sqliteLike, sqliteLike,
    likeFuel_congr (('%' :: ps).length + (c :: s').length)
      (ps.length + (c :: s').length + 1) ps (c :: s') (by simp; omega) (by omega),
    likeFuel_congr (('%' :: ps).length + (c :: s').length)
      (('%' :: ps).length + s'.length + 1) ('%' :: ps) s' (by simp; omega) (by simp)]

theorem sqliteLike_cons_nil {pc : Char} (ps : List Char) (hp : pc ≠ '%') :
    sqliteLike (pc :: ps) [] = false := by
  have h1 : sqliteLike (pc :: ps) [] =
      (if pc = '%' then
        likeFuel ((pc :: ps).length + ([] : List Char).length) ps [] || false
      else false) := rfl
  rw [h1, if_neg hp]

theorem sqliteLike_underscore (ps : List Char) (c : Char) (s : List Char) :
    sqliteLike ('_' :: ps) (c :: s) = sqliteLike ps s := by
  have h1 : sqliteLike ('_' :: ps) (c :: s) =
      likeFuel (('_' :: ps).length + (c :: s).length) ps s := rfl
  rw [h1, sqliteLike]
  exact likeFuel_congr _ _ ps s (by simp; omega) (by omega)

theorem sqliteLike_char {pc : Char} (ps : List Char) (c : Char) (s : List Char)
    (hp : pc ≠ '%') (hu : pc ≠ '_') :
    sqliteLike (pc :: ps) (c :: s) =
      (decide (asciiLower pc = asciiLower c) && sqliteLike ps s) := by
  have h1 : sqliteLike (pc :: ps) (c :: s) =
      (if pc = '%' then
        likeFuel ((pc :: ps).length + (c :: s).length) ps (c :: s) ||
          likeFuel ((pc :: ps).length + (c :: s).length) ('%' :: ps) s
      else if pc = '_' then likeFuel ((pc :: ps).length + (c :: s).length) ps s
      else decide (asciiLower pc = asciiLower c) &&
        likeFuel ((pc :: ps).length + (c :: s).length) ps s) := rfl
  rw [h1, if_neg hp, if_neg hu, sqliteLike,
    likeFuel_congr ((pc :: ps).length + (c :: s).length)
      (ps.length + s.length + 1) ps s (by simp; omega) (by omega)]

theorem sqliteLike_pct_any : ∀ s : List Char, sqliteLike ['%'] s = true := by
  intro s
  induction s with
  | nil => rfl
  | cons c s' ih =>
    rw [sqliteLike_pct_cons, ih]
    simp

theorem sqliteLike_wildfree_iff :
    ∀ (xs : List Char), noWildcard xs = true → ∀ (s : List Char),
      (sqliteLike (xs ++ ['%']) s = true ↔
        (xs.map asciiLower) <+: (s.map asciiLower)) := by
  intro xs
  induction xs with
  | nil =>
    intro _ s
    rw [List.nil_append]
    simp [sqliteLike_pct_any s]
  | cons x xs' ih =>
    intro hw s
    rw [noWildcard, List.all_cons, Bool.and_eq_true] at hw
    obtain ⟨hx, hw'⟩ := hw
    have hxp : x ≠ '%' := by
      intro he
      rw [he] at hx
      simp at hx
    have hxu : x ≠ '_' := by
      intro he
      rw [he] at hx
      simp at hx
    match s with
    | [] =>
      rw [List.cons_append, sqliteLike_cons_nil _ hxp]
      simp
    | c :: s' =>
      rw [List.cons_append, sqliteLike_char _ c s' hxp hxu]
      rw [List.map_cons, List.map_cons, List.cons_prefix_cons]
      rw [Bool.and_eq_true, decide_eq_true_eq]
      exact and_congr Iff.rfl (ih hw' s')

theorem filter_erase_of_not {α : Type} [DecidableEq α] (p : α → Bool)
    (l : List α) (r : α) (hr : p r = false) :
    (l.erase r).filter p = l.filter p := by
  induction l with
  | nil => rfl
  | cons x xs ih =>
    rw [List.erase_cons]
    by_cases hx : x = r
    · rw [if_pos (by simp [hx]), List.filter_cons, hx, hr]
      simp
    · rw [if_neg (by simp [hx]), List.filter_cons, List.filter_cons]
      by_cases hp : p x = true
      · rw [if_pos (by simp [hp]), if_pos (by simp [hp]), ih]
      · rw [if_neg (by simpa using hp), if_neg (by simpa using hp), ih]

theorem getTree_nonroot (sample : FileRec) (rest : List FileRec)
    (path0 : List Char) (h : path0 ≠ []) :
    getTreeStructure (sample :: rest) path0 =
      { path := rstripChar (if '\\' ∈ sample.path then '\\' else '/') path0,
        children := buildChildren
          (rstripChar (if '\\' ∈ sample.path then '\\' else '/') path0)
          (if '\\' ∈ sample.path then '\\' else '/')
          ((sample :: rest).filter (fun r =>
            sqliteLike
              ((rstripChar (if '\\' ∈ sample.path then '\\' else '/') path0) ++
                [(if '\\' ∈ sample.path then '\\' else '/'), '%']) r.path)) } := by
  rw [getTreeStructure]
  rw [if_neg h]

/-- C4 as stated is false: the tree builder selects children with the SQL
pattern `parent + sep + '%'` in which an un-escaped `_` of the parent
matches any character.  For the catalog whose only record has path
`/axb/f.txt`, the request for parent `/a_b` returns that record as a
child, although its path does not start with `/a_b/`. -/
theorem C4_wildcard_breaks_prefix_selection :
    ((getTreeStructure c4Cat (pstr "/a_b")).children.map (fun e => e.path) =
      [pstr "/axb/f.txt"]) ∧
    (c4Cat.map (fun r => r.path) = [pstr "/axb/f.txt"]) ∧
    ¬ ((pstr "/a_b" ++ ['/']) <+: pstr "/axb/f.txt") := by decide

/-- C4 amended: for a non-empty parent path, the children are computed
from exactly the records whose path matches the SQLite `LIKE` pattern
`P + sep + '%'` (`%`/`_` wildcards, ASCII-case-insensitive): deleting any
non-sample record whose path does not match leaves the result unchanged
(so no such record contributes an entry or a size); and when the stripped
parent plus separator contains no wildcard character, matching is exactly
ASCII-case-insensitive literal prefix. -/
theorem C4_children_come_from_like_matches :
    (∀ (sample : FileRec) (rest : List FileRec) (r : FileRec) (path0 : List Char),
      path0 ≠ [] →
      sqliteLike
        ((rstripChar (if '\\' ∈ sample.path then '\\' else '/') path0) ++
          [(if '\\' ∈ sample.path then '\\' else '/'), '%']) r.path = false →
      getTreeStructure (sample :: rest.erase r) path0 =
        getTreeStructure (sample :: rest) path0) ∧
    (∀ (xs s : List Char), noWildcard xs = true →
      (sqliteLike (xs ++ ['%']) s = true ↔
        (xs.map asciiLower) <+: (s.map asciiLower))) := by
  constructor
  · intro sample rest r path0 h hlike
    rw [getTree_nonroot sample (rest.erase r) path0 h,
      getTree_nonroot sample rest path0 h]
    rw [List.filter_cons, List.filter_cons,
      filter_erase_of_not _ rest r hlike]
  · exact fun xs s hw => sqliteLike_wildfree_iff xs hw s

/-- Witness for the amended C4: deleting the non-matching record `/b/g`
does not change the tree level returned for `/a`. -/
theorem C4_children_come_from_like_matches_witness :
    (pstr "/a" ≠ []) ∧
    getTreeStructure (mkRec 1 "/a/f" "f" 1 "m" ::
        ([mkRec 2 "/b/g" "g" 2 "m"].erase (mkRec 2 "/b/g" "g" 2 "m")))
        (pstr "/a") =
      getTreeStructure c6UnixCat (pstr "/a") :=
  ⟨by decide,
    C4_children_come_from_like_matches.1 (mkRec 1 "/a/f" "f" 1 "m")
      [mkRec 2 "/b/g" "g" 2 "m"] (mkRec 2 "/b/g" "g" 2 "m") (pstr "/a")
      (by decide) (by decide)⟩

theorem childAccum_spec (P : List Char) (sep : Char) :
    ∀ (items : List FileRec) (acc : List (List Char × Nat) × List TreeEntry),
      items.foldl
        (fun acc item =>
          let relative := item.path.drop (P.length + 1)
          if sep ∈ relative then
            (addToSums acc.1 (firstSeg sep relative) item.size_bytes, acc.2)
          else
            (acc.1,
             acc.2 ++ [{ name := item.filename, path := item.path, etype := pstr "file",
                         size := item.size_bytes, has_children := false }])) acc =
      (items.foldl
        (fun g r =>
          (if sep ∈ r.path.drop (P.length + 1) then
            some (firstSeg sep (r.path.drop (P.length + 1))) else none).elim g
            (fun k => addToSums g k r.size_bytes)) acc.1,
       acc.2 ++ (items.filter
          (fun r => !(decide (sep ∈ r.path.drop (P.length + 1))))).map fileEntryOf) := by
  intro items
  induction items with
  | nil => intro acc; simp
  | cons r tl ih =>
    intro acc
    rw [List.foldl_cons, List.foldl_cons, List.filter_cons]
    by_cases h : sep ∈ r.path.drop (P.length + 1)
    · rw [ih]
      simp [h]
    · rw [ih]
      simp [h, fileEntryOf]

theorem childAccum_eq (P : List Char) (sep : Char) (items : List FileRec) :
    childAccum P sep items =
      (items.foldl
        (fun g r =>
          (if sep ∈ r.path.drop (P.length + 1) then
            some (firstSeg sep (r.path.drop (P.length + 1))) else none).elim g
            (fun k => addToSums g k r.size_bytes)) [],
       (items.filter
          (fun r => !(decide (sep ∈ r.path.drop (P.length + 1))))).map fileEntryOf) := by
  rw [childAccum, childAccum_spec]
  rfl

theorem strLe_total : ∀ a b : List Char, strLe a b = true ∨ strLe b a = true := by
  intro a
  induction a with
  | nil => intro b; left; rfl
  | cons x as ih =>
    intro b
    match b with
    | [] => right; rfl
    | y :: bs =>
      by_cases hxy : x = y
      · subst hxy
        rw [strLe, if_pos rfl, strLe, if_pos rfl]
        exact ih bs
      · rcases lt_or_gt_of_ne hxy with h | h
        · left
          rw [strLe, if_neg hxy]
          simpa using h
        · right
          rw [strLe, if_neg (Ne.symm hxy)]
          simpa using h

theorem strLe_trans : ∀ a b c : List Char,
    strLe a b = true → strLe b c = true → strLe a c = true := by
  intro a
  induction a with
  | nil => intro b c _ _; rfl
  | cons x as ih =>
    intro b c hab hbc
    match b, c with
    | [], _ => rw [strLe] at hab; exact absurd hab (by simp)
    | y :: bs, [] => rw [strLe] at hbc; exact absurd hbc (by simp)
    | y :: bs, z :: cs =>
      by_cases hxy : x = y <;> by_cases hyz : y = z
      · subst hxy; subst hyz
        rw [strLe, if_pos rfl] at hab hbc ⊢
        exact ih bs cs hab hbc
      · subst hxy
        rw [strLe, if_pos rfl] at hab
        rw [strLe, if_neg hyz] at hbc ⊢
        exact hbc
      · subst hyz
        rw [strLe, if_neg hxy] at hab ⊢
        exact hab
      · rw [strLe, if_neg hxy] at hab
        rw [strLe, if_neg hyz] at hbc
        have hxz : x < z := lt_trans (by simpa using hab) (by simpa using hbc)
        rw [strLe, if_neg (ne_of_lt hxz)]
        simpa using hxz

theorem childLeB_total : ∀ a b : TreeEntry, childLeB a b = true ∨ childLeB b a = true := by
  intro a b
  rw [childLeB, childLeB]
  cases hfa : (decide (a.etype = pstr "file")) <;>
    cases hfb : (decide (b.etype = pstr "file")) <;>
      simp [hfa, hfb] <;>
        exact strLe_total _ _

theorem childLeB_trans : ∀ a b c : TreeEntry,
    childLeB a b = true → childLeB b c = true → childLeB a c = true := by
  intro a b c hab hbc
  rw [childLeB] at hab hbc ⊢
  cases hfa : (decide (a.etype = pstr "file")) <;>
    cases hfb : (decide (b.etype = pstr "file")) <;>
      cases hfc : (decide (c.etype = pstr "file")) <;>
        simp [hfa, hfb, hfc] at hab hbc ⊢ <;>
          try exact strLe_trans _ _ _ hab hbc

theorem firstSeg_not_mem (sep : Char) (rel : List Char) : sep ∉ firstSeg sep rel := by
  intro h
  have := List.mem_takeWhile_imp h
  simp at this

theorem firstSeg_decomp (sep : Char) :
    ∀ rel : List Char, sep ∈ rel → ∃ rest, rel = firstSeg sep rel ++ sep :: rest := by
  intro rel
  induction rel with
  | nil => intro h; simp at h
  | cons c rel' ih =>
    intro h
    by_cases hc : c = sep
    · subst hc
      refine ⟨rel', ?_⟩
      rw [firstSeg, List.takeWhile_cons, if_neg (by simp)]
      rfl
    · have h' : sep ∈ rel' := by
        rcases List.mem_cons.mp h with h1 | h1
        · exact absurd h1.symm hc
        · exact h1
      obtain ⟨rest, hrest⟩ := ih h'
      refine ⟨rest, ?_⟩
      rw [firstSeg, List.takeWhile_cons, if_pos (by simp [hc])]
      rw [firstSeg] at hrest
      rw [List.cons_append, ← hrest]

theorem firstSeg_of_clean_prefix (sep : Char) :
    ∀ (g rest : List Char), sep ∉ g → firstSeg sep (g ++ sep :: rest) = g := by
  intro g
  induction g with
  | nil =>
    intro rest _
    rw [List.nil_append, firstSeg, List.takeWhile_cons, if_neg (by simp)]
  | cons x g' ih =>
    intro rest hg
    have hx : x ≠ sep := fun he => hg (he ▸ List.mem_cons_self x g')
    rw [List.cons_append, firstSeg, List.takeWhile_cons, if_pos (by simp [hx])]
    rw [show List.takeWhile (fun c => decide (c ≠ sep)) (g' ++ sep :: rest) =
      firstSeg sep (g' ++ sep :: rest) from rfl]
    rw [ih rest (fun hm => hg (List.mem_cons_of_mem _ hm))]

theorem path_decomp_of_prefix {pre s : List Char} (h : pre <+: s) :
    s = pre ++ s.drop pre.length := by
  obtain ⟨t, ht⟩ := h
  rw [← ht, List.drop_left]

theorem length_P_sep (P : List Char) (sep : Char) : (P ++ [sep]).length = P.length + 1 := by
  simp

theorem mem_of_lookupSum {K : Type} [DecidableEq K]
    {g : List (K × Nat)} {k : K} (h : k ∈ g.map Prod.fst) :
    (k, lookupSum k g) ∈ g := by
  induction g with
  | nil => simp at h
  | cons hd tl ih =>
    obtain ⟨k', n⟩ := hd
    by_cases h1 : k' = k
    · subst h1; simp [lookupSum]
    · rw [List.map_cons] at h
      rcases List.mem_cons.mp h with h2 | h2
    

      · exact absurd h2.symm h1
      · simp only [lookupSum, if_neg h1]
        exact List.mem_cons_of_mem _ (ih h2)

theorem keyFn_iff_subtree (P : List Char) (sep : Char) (r : FileRec) (g : List Char)
    (hg : sep ∉ g) (hpre : (P ++ [sep]) <+: r.path) :
    ((if sep ∈ r.path.drop (P.length + 1) then
        some (firstSeg sep (r.path.drop (P.length + 1))) else none) = some g)
      ↔ (P ++ [sep] ++ g ++ [sep]) <+: r.path := by
  have hdecomp : r.path = (P ++ [sep]) ++ r.path.drop (P.length + 1) := by
    have := path_decomp_of_prefix hpre
    rwa [length_P_sep] at this
  constructor
  · intro h
    by_cases hs : sep ∈ r.path.drop (P.length + 1)
    · rw [if_pos hs] at h
      injection h with h
      obtain ⟨rest, hrest⟩ := firstSeg_decomp sep _ hs
      rw [h] at hrest
      refine ⟨rest, ?_⟩
      conv_rhs => rw [hdecomp, hrest]
      simp
    · rw [if_neg hs] at h
      exact absurd h (by simp)
  · intro h
    have h2 : (g ++ [sep]) <+: r.path.drop (P.length + 1) := by
      rw [← List.prefix_append_right_inj (P ++ [sep]), ← hdecomp]
      have : P ++ [sep] ++ (g ++ [sep]) = P ++ [sep] ++ g ++ [sep] := by simp
      rw [this]
      exact h
    obtain ⟨t, ht⟩ := h2
    have hs : sep ∈ r.path.drop (P.length + 1) := by
      rw [← ht]
      simp
    rw [if_pos hs]
    rw [← ht, show g ++ [sep] ++ t = g ++ sep :: t by simp,
      firstSeg_of_clean_prefix sep g t hg]

theorem childAccum_lookupSum (P : List Char) (sep : Char) (sel : List FileRec)
    (k : List Char) :
    lookupSum k (childAccum P sep sel).1 =
      ((sel.filter (fun r =>
          (if sep ∈ r.path.drop (P.length + 1) then
            some (firstSeg sep (r.path.drop (P.length + 1))) else none) = some k)).map
        (fun r => r.size_bytes)).sum := by
  rw [childAccum_eq]
  have h := lookupSum_foldl_opt
    (fun r : FileRec => if sep ∈ r.path.drop (P.length + 1) then
      some (firstSeg sep (r.path.drop (P.length + 1))) else none)
    (fun r : FileRec => r.size_bytes) sel ([] : List (List Char × Nat)) k
  have h0 : lookupSum k ([] : List (List Char × Nat)) = 0 := rfl
  rw [h0, Nat.zero_add] at h
  exact h

theorem childAccum_keys_mem (P : List Char) (sep : Char) (sel : List FileRec)
    (k : List Char) :
    (k ∈ (childAccum P sep sel).1.map Prod.fst) ↔
      ∃ r ∈ sel, (if sep ∈ r.path.drop (P.length + 1) then
        some (firstSeg sep (r.path.drop (P.length + 1))) else none) = some k := by
  rw [childAccum_eq]
  have h := keys_mem_foldl_sums_opt
    (fun r : FileRec => if sep ∈ r.path.drop (P.length + 1) then
      some (firstSeg sep (r.path.drop (P.length + 1))) else none)
    (fun r : FileRec => r.size_bytes) sel ([] : List (List Char × Nat)) k
  constructor
  · intro hk
    rcases h.mp hk with h1 | h1
    · simp at h1
    · exact h1
  · intro hk
    exact h.mpr (Or.inr hk)

theorem childAccum_keys_nodup (P : List Char) (sep : Char) (sel : List FileRec) :
    ((childAccum P sep sel).1.map Prod.fst).Nodup := by
  rw [childAccum_eq]
  exact nodup_keys_foldl_sums_opt _ _ sel (by simp)

theorem subtree_filter_eq (cat : Catalog) (P : List Char) (sep : Char)
    (g : List Char) (hg : sep ∉ g)
    (hsel : ∀ r ∈ cat,
      (sqliteLike (P ++ [sep, '%']) r.path = true ↔ (P ++ [sep]) <+: r.path)) :
    (cat.filter (fun r => sqliteLike (P ++ [sep, '%']) r.path)).filter
      (fun r => (if sep ∈ r.path.drop (P.length + 1) then
        some (firstSeg sep (r.path.drop (P.length + 1))) else none) = some g) =
    cat.filter (fun r => decide ((P ++ [sep] ++ g ++ [sep]) <+: r.path)) := by
  rw [List.filter_filter]
  refine List.filter_congr ?_
  intro r hr
  by_cases hlike : sqliteLike (P ++ [sep, '%']) r.path = true
  · have hpre := (hsel r hr).mp hlike
    rw [hlike, Bool.and_true]
    rw [show (decide ((P ++ [sep] ++ g ++ [sep]) <+: r.path)) =
      (decide ((if sep ∈ r.path.drop (P.length + 1) then
        some (firstSeg sep (r.path.drop (P.length + 1))) else none) = some g)) from
      decide_eq_decide.mpr (keyFn_iff_subtree P sep r g hg hpre).symm]
  · have hnpre : ¬ ((P ++ [sep]) <+: r.path) := fun hp => hlike ((hsel r hr).mpr hp)
    have hlikef : sqliteLike (P ++ [sep, '%']) r.path = false := by
      simpa using hlike
    rw [hlikef, Bool.and_false]
    symm
    rw [decide_eq_false_iff_not]
    intro hsub
    refine hnpre (List.IsPrefix.trans ?_ hsub)
    rw [show P ++ [sep] ++ g ++ [sep] = (P ++ [sep]) ++ (g ++ [sep]) by simp]
    exact List.prefix_append _ _

/-- C5: for a non-root tree request whose `LIKE` selection coincides with
literal prefix selection (the wildcard-free, case-consistent case; the
divergence is claim C4's subject), the returned level has: each distinct
first segment below the parent as one directory entry whose size is the
sum of `size_bytes` of all records in that subtree and
`has_children = true`; each record with no further separator as one file
entry with its own size and `has_children = false`; and the children
sorted directories before files, case-insensitively by name — as in the
spec's `/a/b/x.txt`, `/a/b/y.txt`, `/a/c.txt` scenario. -/
theorem C5_tree_level_children (sample : FileRec) (rest : List FileRec)
    (path0 : List Char) (hp : path0 ≠ [])
    (sep : Char) (hsep : sep = (if '\\' ∈ sample.path then '\\' else '/'))
    (P : List Char) (hP : P = rstripChar sep path0)
    (hsel : ∀ r ∈ sample :: rest,
      (sqliteLike (P ++ [sep, '%']) r.path = true ↔ (P ++ [sep]) <+: r.path)) :
    (getTreeStructure (sample :: rest) path0).path = P ∧
    List.Sorted (fun a b => childLeB a b = true)
      (getTreeStructure (sample :: rest) path0).children ∧
    (∀ e ∈ (getTreeStructure (sample :: rest) path0).children,
      e.etype = pstr "dir" ∨ e.etype = pstr "file") ∧
    (∀ e ∈ (getTreeStructure (sample :: rest) path0).children,
      e.etype = pstr "dir" →
      e.has_children = true ∧ sep ∉ e.name ∧ e.path = P ++ sep :: e.name ∧
      e.size = sumSizes ((sample :: rest).filter
        (fun r => decide ((P ++ [sep] ++ e.name ++ [sep]) <+: r.path))) ∧
      ∃ r ∈ sample :: rest, (P ++ [sep] ++ e.name ++ [sep]) <+: r.path) ∧
    (∀ g, sep ∉ g → (∃ r ∈ sample :: rest, (P ++ [sep] ++ g ++ [sep]) <+: r.path) →
      ∃ e ∈ (getTreeStructure (sample :: rest) path0).children,
        e.etype = pstr "dir" ∧ e.name = g) ∧
    ((((getTreeStructure (sample :: rest) path0).children.filter
        (fun e => decide (e.etype = pstr "dir"))).map (fun e => e.name)).Nodup) ∧
    (∀ e ∈ (getTreeStructure (sample :: rest) path0).children,
      e.etype = pstr "file" →
      e.has_children = false ∧ ∃ r ∈ sample :: rest,
        sqliteLike (P ++ [sep, '%']) r.path = true ∧
        sep ∉ r.path.drop (P.length + 1) ∧ e = fileEntryOf r) ∧
    (∀ r ∈ sample :: rest, (P ++ [sep]) <+: r.path →
      sep ∉ r.path.drop (P.length + 1) →
      fileEntryOf r ∈ (getTreeStructure (sample :: rest) path0).children) := by
  have hres : getTreeStructure (sample :: rest) path0 =
      { path := P,
        children := buildChildren P sep ((sample :: rest).filter
          (fun r => sqliteLike (P ++ [sep, '%']) r.path)) } := by
    rw [getTree_nonroot sample rest path0 hp, ← hsep, ← hP]
  set sel := (sample :: rest).filter
    (fun r => sqliteLike (P ++ [sep, '%']) r.path) with hseldef
  have hchildren : (getTreeStructure (sample :: rest) path0).children =
      List.insertionSort (fun a b => childLeB a b = true)
        (((childAccum P sep sel).1).map (dirEntry P sep) ++ (childAccum P sep sel).2) := by
    rw [hres]
    rfl
  have hperm : ∀ e, e ∈ (getTreeStructure (sample :: rest) path0).children ↔
      e ∈ ((childAccum P sep sel).1).map (dirEntry P sep) ++ (childAccum P sep sel).2 := by
    intro e
    rw [hchildren]
    exact (List.perm_insertionSort _ _).mem_iff
  have hfiles2 : (childAccum P sep sel).2 =
      (sel.filter (fun r => !(decide (sep ∈ r.path.drop (P.length + 1))))).map
        fileEntryOf := by
    rw [childAccum_eq]
  have hselsub : ∀ r ∈ sel, r ∈ (sample :: rest) ∧
      sqliteLike (P ++ [sep, '%']) r.path = true := by
    intro r hr
    exact ⟨(List.mem_filter.mp hr).1, (List.mem_filter.mp hr).2⟩
  have hselpre : ∀ r ∈ sel, (P ++ [sep]) <+: r.path := fun r hr =>
    (hsel r (hselsub r hr).1).mp (hselsub r hr).2
  have hnotdir : ∀ r : FileRec, ¬ ((fileEntryOf r).etype = pstr "dir") := by
    intro r h
    exact absurd (show pstr "file" = pstr "dir" from h) (by decide)
  have hkclean : ∀ k n, (k, n) ∈ (childAccum P sep sel).1 → sep ∉ k := by
    intro k n hkn
    have hk : k ∈ (childAccum P sep sel).1.map Prod.fst :=
      List.mem_map.mpr ⟨(k, n), hkn, rfl⟩
    obtain ⟨r, hr, hkey⟩ := (childAccum_keys_mem P sep sel k).mp hk
    by_cases hs : sep ∈ r.path.drop (P.length + 1)
    · rw [if_pos hs] at hkey
      injection hkey with hkey
      rw [← hkey]
      exact firstSeg_not_mem sep _
    · rw [if_neg hs] at hkey
      exact absurd hkey (by simp)
  refine ⟨by rw [hres], ?_, ?_, ?_, ?_, ?_, ?_, ?_⟩
  · rw [hchildren]
    haveI h1 : IsTotal TreeEntry (fun a b => childLeB a b = true) := ⟨childLeB_total⟩
    haveI h2 : IsTrans TreeEntry (fun a b => childLeB a b = true) := ⟨childLeB_trans⟩
    exact List.sorted_insertionSort _ _
  · intro e he
    rcases List.mem_append.mp ((hperm e).mp he) with h | h
    · obtain ⟨⟨k, n⟩, _, hre⟩ := List.mem_map.mp h
      left
      rw [← hre]
      rfl
    · rw [hfiles2] at h
      obtain ⟨r, _, hre⟩ := List.mem_map.mp h
      right
      rw [← hre]
      rfl
  · intro e he hdir
    rcases List.mem_append.mp ((hperm e).mp he) with h | h
    · obtain ⟨⟨k, n⟩, hkn, hre⟩ := List.mem_map.mp h
      subst hre
      have hclean : sep ∉ k := hkclean k n hkn
      refine ⟨rfl, hclean, rfl, ?_, ?_⟩
      · show n = sumSizes ((sample :: rest).filter
          (fun r => decide ((P ++ [sep] ++ k ++ [sep]) <+: r.path)))
        have hn : n = lookupSum k (childAccum P sep sel).1 :=
          (lookupSum_eq_of_mem (childAccum_keys_nodup P sep sel) hkn).symm
        rw [hn, childAccum_lookupSum, sumSizes]
        rw [show (sel.filter (fun r =>
            (if sep ∈ r.path.drop (P.length + 1) then
              some (firstSeg sep (r.path.drop (P.length + 1))) else none) = some k)) =
          ((sample :: rest).filter
            (fun r => decide ((P ++ [sep] ++ k ++ [sep]) <+: r.path))) from
          subtree_filter_eq (sample :: rest) P sep k hclean hsel]
      · have hk : k ∈ (childAccum P sep sel).1.map Prod.fst :=
          List.mem_map.mpr ⟨(k, n), hkn, rfl⟩
        obtain ⟨r, hr, hkey⟩ := (childAccum_keys_mem P sep sel k).mp hk
        refine ⟨r, (hselsub r hr).1, ?_⟩
        exact (keyFn_iff_subtree P sep r k hclean (hselpre r hr)).mp hkey
    · rw [hfiles2] at h
      obtain ⟨r, _, hre⟩ := List.mem_map.mp h
      rw [← hre] at hdir
      exact absurd hdir (hnotdir r)
  · intro g hg hex
    obtain ⟨r, hr, hsub⟩ := hex
    have hpre : (P ++ [sep]) <+: r.path := by
      refine List.IsPrefix.trans ?_ hsub
      rw [show P ++ [sep] ++ g ++ [sep] = (P ++ [sep]) ++ (g ++ [sep]) by simp]
      exact List.prefix_append _ _
    have hlike : sqliteLike (P ++ [sep, '%']) r.path = true := (hsel r hr).mpr hpre
    have hrsel : r ∈ sel := List.mem_filter.mpr ⟨hr, hlike⟩
    have hkey : (if sep ∈ r.path.drop (P.length + 1) then
        some (firstSeg sep (r.path.drop (P.length + 1))) else none) = some g :=
      (keyFn_iff_subtree P sep r g hg (hselpre r hrsel)).mpr hsub
    have hkmem : g ∈ (childAccum P sep sel).1.map Prod.fst :=
      (childAccum_keys_mem P sep sel g).mpr ⟨r, hrsel, hkey⟩
    refine ⟨dirEntry P sep (g, lookupSum g (childAccum P sep sel).1),
      (hperm _).mpr (List.mem_append.mpr (Or.inl
        (List.mem_map.mpr ⟨_, mem_of_lookupSum hkmem, rfl⟩))), rfl, rfl⟩
  · rw [hchildren]
    have hpf := (List.perm_insertionSort (fun a b => childLeB a b = true)
      (((childAccum P sep sel).1).map (dirEntry P sep) ++
        (childAccum P sep sel).2)).filter
      (fun e => decide (e.etype = pstr "dir"))
    refine ((hpf.map (fun e => e.name)).nodup_iff).mpr ?_
    rw [List.filter_append]
    rw [List.filter_eq_self.mpr (by
      intro e he
      obtain ⟨⟨k, n⟩, _, hre⟩ := List.mem_map.mp he
      rw [← hre]
      exact decide_eq_true rfl)]
    rw [show (childAccum P sep sel).2.filter (fun e => decide (e.etype = pstr "dir"))
        = [] from List.filter_eq_nil.mpr (by
      intro e he
      rw [hfiles2] at he
      obtain ⟨r, _, hre⟩ := List.mem_map.mp he
      rw [← hre]
      exact fun hc => absurd
        (show pstr "file" = pstr "dir" from of_decide_eq_true hc) (by decide))]
    rw [List.append_nil, List.map_map]
    exact childAccum_keys_nodup P sep sel
  · intro e he hfile
    rcases List.mem_append.mp ((hperm e).mp he) with h | h
    · obtain ⟨⟨k, n⟩, _, hre⟩ := List.mem_map.mp h
      rw [← hre] at hfile
      exact absurd (show pstr "dir" = pstr "file" from hfile) (by decide)
    · rw [hfiles2] at h
      obtain ⟨r, hrf, hre⟩ := List.mem_map.mp h
      obtain ⟨hrsel, hpred⟩ := List.mem_filter.mp hrf
      refine ⟨by rw [← hre]; rfl, r, (hselsub r hrsel).1, (hselsub r hrsel).2, ?_, hre.symm⟩
      simpa using hpred
  · intro r hr hpre hnosep
    have hlike : sqliteLike (P ++ [sep, '%']) r.path = true := (hsel r hr).mpr hpre
    have hrsel : r ∈ sel := List.mem_filter.mpr ⟨hr, hlike⟩
    refine (hperm _).mpr (List.mem_append.mpr (Or.inr ?_))
    rw [hfiles2]
    refine List.mem_map.mpr ⟨r, List.mem_filter.mpr ⟨hrsel, ?_⟩, rfl⟩
    simpa using hnosep

/-- Witness for C5 at the spec's own example catalog `/a/b/x.txt` (100),
`/a/b/y.txt` (200), `/a/c.txt` (50): the children of `/a` are exactly the
directory `b` of size 300 followed by the file `c.txt` of size 50, and the
sortedness conjunct is obtained from the theorem with every hypothesis
discharged by computation. -/
theorem C5_tree_level_children_witness :
    (getTreeStructure c5Cat (pstr "/a")).children =
      [{ name := pstr "b", path := pstr "/a/b", etype := pstr "dir",
         size := 300, has_children := true },
       { name := pstr "c.txt", path := pstr "/a/c.txt", etype := pstr "file",
         size := 50, has_children := false }] ∧
    List.Sorted (fun a b => childLeB a b = true)
      (getTreeStructure c5Cat (pstr "/a")).children := by
  refine ⟨by decide, ?_⟩
  exact (C5_tree_level_children (mkRec 1 "/a/b/x.txt" "x.txt" 100 "h1")
    [mkRec 2 "/a/b/y.txt" "y.txt" 200 "h2", mkRec 3 "/a/c.txt" "c.txt" 50 "h3"]
    (pstr "/a") (by decide) '/' (by decide) (pstr "/a") (by decide) (by decide)).2.1

/-!
## C7: folder heuristic rules (`_find_dev_folders`, `_find_cache_folders`)
-/

/-- A pattern starting with `%` matches a string as soon as the rest of
the pattern matches some suffix of it. -/
theorem sqliteLike_pct_of_suffix (q : List Char) :
    ∀ (s t : List Char), t <:+ s → sqliteLike q t = true →
      sqliteLike ('%' :: q) s = true := by
  intro s
  induction s with
  | nil =>
    intro t ht hq
    rw [List.suffix_nil] at ht
    subst ht
    have h1 : sqliteLike ('%' :: q) [] =
        (likeFuel (q.length + 1) q [] || false) := rfl
    have h3 : likeFuel (q.length + 1) q [] = true := by
      rw [likeFuel_congr (q.length + 1) (q.length + List.length ([] : List Char) + 1)
        q [] (by simp) (by simp)]
      exact hq
    rw [h1, h3]
    rfl
  | cons c s' ih =>
    intro t ht hq
    rcases List.suffix_cons_iff.mp ht with h | h
    · subst h
      rw [sqliteLike_pct_cons, hq]
      rfl
    · rw [sqliteLike_pct_cons, ih t h hq]
      simp

/-- A percent-free pattern matches itself followed by arbitrary text once a
trailing `%` is appended. -/
theorem sqliteLike_self_append :
    ∀ (xs rest : List Char), '%' ∉ xs →
      sqliteLike (xs ++ ['%']) (xs ++ rest) = true := by
  intro xs
  induction xs with
  | nil => intro rest h; exact sqliteLike_pct_any rest
  | cons x xs ih =>
    intro rest h
    have hx : x ≠ '%' := fun he => h (he ▸ List.mem_cons_self x xs)
    have hxs : '%' ∉ xs := fun hm => h (List.mem_cons_of_mem _ hm)
    rw [List.cons_append, List.cons_append]
    by_cases hu : x = '_'
    · subst hu
      rw [sqliteLike_underscore]
      exact ih rest hxs
    · rw [sqliteLike_char _ _ _ hx hu]
      simp [ih rest hxs]

/-- Any string containing a percent-free needle as a contiguous substring
matches the pattern `'%' ++ needle ++ '%'`. -/
theorem sqliteLike_infix_of_decomp (needle a b : List Char) (h : '%' ∉ needle) :
    sqliteLike ('%' :: (needle ++ ['%'])) (a ++ needle ++ b) = true := by
  refine sqliteLike_pct_of_suffix (needle ++ ['%']) (a ++ needle ++ b) (needle ++ b)
    ?_ (sqliteLike_self_append needle b h)
  rw [List.append_assoc]
  exact List.suffix_append a (needle ++ b)

/-- Every index reported by `subIndex` is a genuine occurrence: the string
decomposes around the pattern at that index. -/
theorem subIndex_decomp (pat : List Char) :
    ∀ (s : List Char) (i : Nat), subIndex pat s = some i →
      ∃ a b, s = a ++ pat ++ b ∧ a.length = i := by
  intro s
  induction s with
  | nil =>
    intro i h
    have h0 : subIndex pat [] =
        (if pat.isPrefixOf ([] : List Char) then some 0 else none) := rfl
    rw [h0] at h
    by_cases hp : pat.isPrefixOf ([] : List Char)
    · rw [if_pos hp] at h
      injection h with h
      have hpe : pat = [] := by
        have := List.isPrefixOf_iff_prefix.mp hp
        simpa using this
      exact ⟨[], [], by simp [hpe], h⟩
    · rw [if_neg hp] at h
      exact absurd h (by simp)
  | cons c s' ih =>
    intro i h
    have h0 : subIndex pat (c :: s') =
        (if pat.isPrefixOf (c :: s') then some 0
         else (subIndex pat s').map (· + 1)) := rfl
    rw [h0] at h
    by_cases hp : pat.isPrefixOf (c :: s')
    · rw [if_pos hp] at h
      injection h with h
      obtain ⟨b, hb⟩ := List.isPrefixOf_iff_prefix.mp hp
      exact ⟨[], b, by simp [hb.symm], h⟩
    · rw [if_neg hp] at h
      rcases ho : subIndex pat s' with _ | j
      · rw [ho] at h
        exact absurd h (by simp)
      · rw [ho] at h
        simp only [Option.map_some', Option.some.injEq] at h
        obtain ⟨a, b, hab, hlen⟩ := ih j ho
        refine ⟨c :: a, b, by simp [hab], ?_⟩
        rw [List.length_cons, hlen]
        omega

/-- `subIndex` reports the first occurrence: it is bounded by the offset of
every decomposition. -/
theorem subIndex_first (pat : List Char) :
    ∀ (s : List Char) (i : Nat), subIndex pat s = some i →
      ∀ (a b : List Char), s = a ++ pat ++ b → i ≤ a.length := by
  intro s
  induction s with
  | nil =>
    intro i h a b hab
    have h0 : subIndex pat [] =
        (if pat.isPrefixOf ([] : List Char) then some 0 else none) := rfl
    rw [h0] at h
    by_cases hp : pat.isPrefixOf ([] : List Char)
    · rw [if_pos hp] at h
      injection h with h
      omega
    · rw [if_neg hp] at h
      exact absurd h (by simp)
  | cons c s' ih =>
    intro i h a b hab
    have h0 : subIndex pat (c :: s') =
        (if pat.isPrefixOf (c :: s') then some 0
         else (subIndex pat s').map (· + 1)) := rfl
    rw [h0] at h
    by_cases hp : pat.isPrefixOf (c :: s')
    · rw [if_pos hp] at h
      injection h with h
      omega
    · rw [if_neg hp] at h
      cases a with
      | nil =>
        exfalso
        apply hp
        rw [List.isPrefixOf_iff_prefix]
        exact ⟨b, by simpa using hab.symm⟩
      | cons a0 a' =>
        rw [List.cons_append, List.cons_append] at hab
        injection hab with h1 h2
        rcases ho : subIndex pat s' with _ | j
        · rw [ho] at h
          exact absurd h (by simp)
        · rw [ho] at h
          simp only [Option.map_some', Option.some.injEq] at h
          have := ih j ho a' b h2
          simp only [List.length_cons]
          omega

/-- An occurrence of the pattern guarantees `subIndex` finds one. -/
theorem subIndex_isSome_of_decomp (pat : List Char) :
    ∀ (a b s : List Char), s = a ++ pat ++ b → (subIndex pat s).isSome := by
  intro a
  induction a with
  | nil =>
    intro b s hs
    simp only [List.nil_append] at hs
    have hpre : pat.isPrefixOf s = true := by
      rw [List.isPrefixOf_iff_prefix]
      exact ⟨b, hs.symm⟩
    cases s with
    | nil =>
      have h0 : subIndex pat [] =
          (if pat.isPrefixOf ([] : List Char) then some 0 else none) := rfl
      rw [h0, if_pos hpre]
      rfl
    | cons c s' =>
      have h0 : subIndex pat (c :: s') =
          (if pat.isPrefixOf (c :: s') then some 0
           else (subIndex pat s').map (· + 1)) := rfl
      rw [h0, if_pos hpre]
      rfl
  | cons a0 a' ih =>
    intro b s hs
    cases s with
    | nil => exact absurd hs (by simp)
    | cons c s' =>
      have h0 : subIndex pat (c :: s') =
          (if pat.isPrefixOf (c :: s') then some 0
           else (subIndex pat s').map (· + 1)) := rfl
      rw [h0]
      by_cases hp : pat.isPrefixOf (c :: s')
      · rw [if_pos hp]
        rfl
      · rw [if_neg hp]
        rw [List.cons_append, List.cons_append] at hs
        injection hs with h1 h2
        have := ih b s' h2
        rcases ho : subIndex pat s' with _ | j
        · rw [ho] at this
          simp at this
        · simp [ho]

/-- A pattern containing a character that the string lacks never occurs. -/
theorem subIndex_eq_none_of_not_mem {c : Char} {pat p : List Char}
    (hc : c ∈ pat) (hp : c ∉ p) : subIndex pat p = none := by
  rcases h : subIndex pat p with _ | i
  · rfl
  · obtain ⟨a, b, hab, _⟩ := subIndex_decomp pat p i h
    exact absurd (show c ∈ p by rw [hab]; simp [hc]) hp

/-- The percent character never occurs in a separator-bounded needle built
from a percent-free folder name. -/
theorem pct_not_mem_bounded {sep : Char} (hsep : sep ≠ '%') {folder : List Char}
    (h : '%' ∉ folder) : '%' ∉ (sep :: folder ++ [sep]) := by
  intro hm
  rcases List.mem_cons.mp hm with he | hm2
  · exact hsep he.symm
  · rcases List.mem_append.mp hm2 with hm3 | hm4
    · exact h hm3
    · have he : '%' = sep := by simpa using hm4
      exact hsep he.symm

/-- Filtering with a predicate that holds whenever the key function fires does
not change an Option-keyed sum accumulation. -/
theorem foldl_sums_filter_eq (p : FileRec → Bool)
    (keyF : FileRec → Option (List Char))
    (hpk : ∀ r : FileRec, (keyF r).isSome → p r = true) :
    ∀ (cat : List FileRec) (g : List (List Char × Nat)),
      ((cat.filter p).foldl (fun g r =>
        (keyF r).elim g (fun root => addToSums g root r.size_bytes)) g) =
      (cat.foldl (fun g r =>
        (keyF r).elim g (fun root => addToSums g root r.size_bytes)) g) := by
  intro cat
  induction cat with
  | nil => intro g; rfl
  | cons r cat ih =>
    intro g
    by_cases hp : p r = true
    · rw [List.filter_cons, if_pos hp, List.foldl_cons, List.foldl_cons, ih]
    · have hk : keyF r = none := by
        rcases hko : keyF r with _ | k
        · rfl
        · exact absurd (hpk r (by rw [hko]; rfl)) hp
      rw [List.filter_cons, if_neg hp, List.foldl_cons]
      simp only [hk, Option.elim_none]
      exact ih g

/-- Any record whose root computation fires passes the `LIKE` pre-filter of the
folder rules. -/
theorem folderRootOf_isSome_like (folder : List Char) (h : '%' ∉ folder)
    (p : List Char) (hs : (folderRootOf folder p).isSome) :
    (sqliteLike ('%' :: '\\' :: folder ++ ['\\', '%']) p ||
     sqliteLike ('%' :: '/' :: folder ++ ['/', '%']) p) = true := by
  have hwpat : ('%' :: '\\' :: folder ++ ['\\', '%']) =
      '%' :: (('\\' :: folder ++ ['\\']) ++ ['%']) := by simp
  have hupat : ('%' :: '/' :: folder ++ ['/', '%']) =
      '%' :: (('/' :: folder ++ ['/']) ++ ['%']) := by simp
  rcases h1 : subIndex ('\\' :: folder ++ ['\\']) p with _ | i
  · rcases h2 : subIndex ('/' :: folder ++ ['/']) p with _ | j
    · rw [folderRootOf, h1, h2] at hs
      simp at hs
    · obtain ⟨a, b, hab, _⟩ := subIndex_decomp _ p j h2
      have hm : sqliteLike ('%' :: (('/' :: folder ++ ['/']) ++ ['%'])) p = true := by
        rw [hab]
        exact sqliteLike_infix_of_decomp _ a b (pct_not_mem_bounded (by decide) h)
      rw [hupat, hm]
      simp
  · obtain ⟨a, b, hab, _⟩ := subIndex_decomp _ p i h1
    have hm : sqliteLike ('%' :: (('\\' :: folder ++ ['\\']) ++ ['%'])) p = true := by
      rw [hab]
      exact sqliteLike_infix_of_decomp _ a b (pct_not_mem_bounded (by decide) h)
    rw [hwpat, hm]
    simp

/-- The `LIKE` pre-filter of the folder rules is transparent: the per-folder
accumulation equals the same accumulation over the whole catalog. -/
theorem folderGroups_eq_unfiltered (folder : List Char) (h : '%' ∉ folder)
    (cat : Catalog) :
    folderGroups folder cat = cat.foldl (fun g r =>
      (folderRootOf folder r.path).elim g
        (fun root => addToSums g root r.size_bytes)) [] :=
  foldl_sums_filter_eq
    (fun r => sqliteLike ('%' :: '\\' :: folder ++ ['\\', '%']) r.path ||
      sqliteLike ('%' :: '/' :: folder ++ ['/', '%']) r.path)
    (fun r => folderRootOf folder r.path)
    (fun r hs => folderRootOf_isSome_like folder h r.path hs) cat []

/-- An occurrence whose window fits inside a prefix of the string is an
occurrence in that prefix. -/
theorem decomp_of_prefix_window {p' p pat : List Char} (hpre : p' <+: p)
    (a b : List Char) (hp : p = a ++ pat ++ b)
    (hlen : a.length + pat.length ≤ p'.length) :
    ∃ b', p' = a ++ pat ++ b' := by
  have h1 : (a ++ pat) <+: p := by
    rw [hp, show a ++ pat ++ b = (a ++ pat) ++ b by simp]
    exact List.prefix_append _ _
  have h2 : (a ++ pat) <+: p' :=
    List.prefix_of_prefix_length_le h1 hpre (by simpa using hlen)
  obtain ⟨b', hb'⟩ := h2
  exact ⟨b', hb'.symm⟩

/-- Taking up to the end of the folder name out of a bounded occurrence yields
the prefix through the folder name. -/
theorem take_root (a folder : List Char) (sep : Char) (b : List Char) :
    (a ++ (sep :: folder ++ [sep]) ++ b).take (a.length + folder.length + 1) =
      a ++ sep :: folder := by
  rw [show a ++ (sep :: folder ++ [sep]) ++ b = (a ++ sep :: folder) ++ (sep :: b)
    by simp]
  refine List.take_left' ?_
  simp
  omega

/-- When a decomposition offset is minimal among occurrences inside its own
window extension, `subIndex` reports exactly that offset. -/
theorem subIndex_eq_first (pat p a rest : List Char) (hp : p = a ++ pat ++ rest)
    (hfe : ∀ a' b', a ++ pat = a' ++ pat ++ b' → a.length ≤ a'.length) :
    subIndex pat p = some a.length := by
  have hsome := subIndex_isSome_of_decomp pat a rest p hp
  rcases hi : subIndex pat p with _ | i
  · rw [hi] at hsome
    simp at hsome
  · obtain ⟨a₂, b₂, hab₂, hlen₂⟩ := subIndex_decomp pat p i hi
    have hile : i ≤ a.length := subIndex_first pat p i hi a rest hp
    have hpre : (a ++ pat) <+: p := by
      rw [hp, show a ++ pat ++ rest = (a ++ pat) ++ rest by simp]
      exact List.prefix_append _ _
    obtain ⟨b₂', hb₂'⟩ := decomp_of_prefix_window hpre a₂ b₂ hab₂
      (by simp; omega)
    have hge := hfe a₂ b₂' hb₂'
    congr 1
    omega

/-- Characterization of a fired root computation on a separator-consistent
path: the path splits around a bounded occurrence of the folder name, the
root is the prefix through the folder name, and that occurrence is the
first bounded occurrence under either separator. -/
theorem folderRootOf_some_spec (folder p : List Char)
    (hcon : ¬('\\' ∈ p ∧ '/' ∈ p)) (root : List Char)
    (h : folderRootOf folder p = some root) :
    ∃ sep a b, (sep = '\\' ∨ sep = '/') ∧
      p = a ++ (sep :: folder ++ [sep]) ++ b ∧
      root = a ++ sep :: folder ∧
      (∀ sep' a' b', (sep' = '\\' ∨ sep' = '/') →
        p = a' ++ (sep' :: folder ++ [sep']) ++ b' →
        sep' = sep ∧ a.length ≤ a'.length) := by
  rcases h1 : subIndex ('\\' :: folder ++ ['\\']) p with _ | i
  · rcases h2 : subIndex ('/' :: folder ++ ['/']) p with _ | j
    · rw [folderRootOf, h1, h2] at h
      simp at h
    · rw [folderRootOf, h1, h2] at h
      simp only [Option.elim_none, Option.elim_some, Option.some.injEq] at h
      obtain ⟨a, b, hab, hlen⟩ := subIndex_decomp _ p j h2
      refine ⟨'/', a, b, Or.inr rfl, hab, ?_, ?_⟩
      · rw [← h, hab, ← hlen]
        exact take_root a folder '/' b
      · intro sep' a' b' hsep' hab'
        rcases hsep' with he | he
        · subst he
          exfalso
          have hw := subIndex_isSome_of_decomp ('\\' :: folder ++ ['\\']) a' b' p hab'
          rw [h1] at hw
          simp at hw
        · subst he
          refine ⟨rfl, ?_⟩
          have := subIndex_first _ p j h2 a' b' hab'
          omega
  · rw [folderRootOf, h1] at h
    simp only [Option.elim_some, Option.some.injEq] at h
    obtain ⟨a, b, hab, hlen⟩ := subIndex_decomp _ p i h1
    refine ⟨'\\', a, b, Or.inl rfl, hab, ?_, ?_⟩
    · rw [← h, hab, ← hlen]
      exact take_root a folder '\\' b
    · intro sep' a' b' hsep' hab'
      rcases hsep' with he | he
      · subst he
        refine ⟨rfl, ?_⟩
        have := subIndex_first _ p i h1 a' b' hab'
        omega
      · subst he
        exfalso
        have hsl : '/' ∈ p := by rw [hab']; simp
        have hbs : '\\' ∈ p := by rw [hab]; simp
        exact hcon ⟨hbs, hsl⟩

/-- Every separator-consistent path lying under a minimal-occurrence root
computes exactly that root. -/
theorem folderRootOf_of_under_root (folder : List Char) (sep : Char)
    (hsep : sep = '\\' ∨ sep = '/') (a : List Char)
    (hfe : ∀ a' b',
      a ++ (sep :: folder ++ [sep]) = a' ++ (sep :: folder ++ [sep]) ++ b' →
      a.length ≤ a'.length)
    (p : List Char) (hcon : ¬('\\' ∈ p ∧ '/' ∈ p))
    (hund : (a ++ (sep :: folder ++ [sep])) <+: p) :
    folderRootOf folder p = some (a ++ sep :: folder) := by
  obtain ⟨rest, hrest⟩ := hund
  have hp : p = a ++ (sep :: folder ++ [sep]) ++ rest := hrest.symm
  rcases hsep with he | he
  · subst he
    have hwin : subIndex ('\\' :: folder ++ ['\\']) p = some a.length :=
      subIndex_eq_first _ p a rest hp hfe
    rw [folderRootOf, hwin]
    simp only [Option.elim_some, Option.some.injEq]
    rw [hp]
    exact take_root a folder '\\' rest
  · subst he
    have hsl : '/' ∈ p := by rw [hp]; simp
    have hbs : '\\' ∉ p := fun hb => hcon ⟨hb, hsl⟩
    have hwin : subIndex ('\\' :: folder ++ ['\\']) p = none :=
      subIndex_eq_none_of_not_mem (List.mem_cons_self _ _) hbs
    have hux : subIndex ('/' :: folder ++ ['/']) p = some a.length :=
      subIndex_eq_first _ p a rest hp hfe
    rw [folderRootOf, hwin, hux]
    simp only [Option.elim_none, Option.elim_some, Option.some.injEq]
    rw [hp]
    exact take_root a folder '/' rest

/-- Folding an append of mapped blocks produces the flattened map. -/
theorem foldl_append_map_flatten {α β : Type} (f : α → List β) :
    ∀ (l : List α) (acc : List β),
      l.foldl (fun a x => a ++ f x) acc = acc ++ (l.map f).flatten := by
  intro l
  induction l with
  | nil => intro acc; simp
  | cons x l ih =>
    intro acc
    rw [List.foldl_cons, ih]
    simp

/-- C7 amended: over a separator-consistent catalog (no path mixes `\` and
`/`), for every percent-free folder name the folder rules behave as the
claim says: a record contributes only when the folder name occurs literally
bounded by one separator on both sides, and then its aggregation root is
the path prefix up to and including the first such bounded occurrence (the
firstness conjunct quantifies over both separators); the accumulated
groups have pairwise-distinct roots, one per contributing record's root;
each group's size is exactly the sum of `size_bytes` of the records whose
computed root is that root, and every record lying under a minimal root
computes exactly that root (no cross-root leakage); `_find_dev_folders`
and `_find_cache_folders` emit exactly one suggestion per group, per
folder name, carrying the group's root and size. -/
theorem C7_folder_rule_grouping (cat : Catalog)
    (hcon : ∀ r ∈ cat, ¬('\\' ∈ r.path ∧ '/' ∈ r.path)) :
    (∀ folder : List Char, '%' ∉ folder →
      ((∀ r ∈ cat, ∀ root, folderRootOf folder r.path = some root →
          ∃ sep a b, (sep = '\\' ∨ sep = '/') ∧
            r.path = a ++ (sep :: folder ++ [sep]) ++ b ∧
            root = a ++ sep :: folder ∧
            (∀ sep' a' b', (sep' = '\\' ∨ sep' = '/') →
              r.path = a' ++ (sep' :: folder ++ [sep']) ++ b' →
              sep' = sep ∧ a.length ≤ a'.length)) ∧
        ((folderGroups folder cat).map Prod.fst).Nodup ∧
        (∀ root, root ∈ (folderGroups folder cat).map Prod.fst ↔
          ∃ r ∈ cat, folderRootOf folder r.path = some root) ∧
        (∀ root n, (root, n) ∈ folderGroups folder cat →
          n = ((cat.filter (fun r =>
            folderRootOf folder r.path = some root)).map
              (fun r => r.size_bytes)).sum) ∧
        (∀ (sep : Char) (a : List Char), (sep = '\\' ∨ sep = '/') →
          (∀ a' b',
            a ++ (sep :: folder ++ [sep]) = a' ++ (sep :: folder ++ [sep]) ++ b' →
            a.length ≤ a'.length) →
          ∀ r ∈ cat, (a ++ (sep :: folder ++ [sep])) <+: r.path →
            folderRootOf folder r.path = some (a ++ sep :: folder)))) ∧
    findDevFolders cat = (devFolderNames.map (fun folder =>
      (folderGroups folder cat).map (fun g =>
        { path := g.1, stype := pstr "folder",
          reason := pstr "Pasta de dependências/build (" ++ folder ++ pstr ")",
          action := pstr "ignore", size_bytes := g.2 }))).flatten ∧
    findCacheFolders cat = (cacheFolderNames.map (fun folder =>
      (folderGroups folder cat).map (fun g =>
        { path := g.1, stype := pstr "folder",
          reason := pstr "Pasta de cache (" ++ folder ++ pstr ")",
          action := pstr "delete", size_bytes := g.2 }))).flatten := by
  refine ⟨?_, ?_, ?_⟩
  · intro folder hpct
    refine ⟨?_, ?_, ?_, ?_, ?_⟩
    · intro r hr root h
      exact folderRootOf_some_spec folder r.path (hcon r hr) root h
    · rw [folderGroups_eq_unfiltered folder hpct cat]
      exact nodup_keys_foldl_sums_opt (fun r => folderRootOf folder r.path)
        (fun r => r.size_bytes) cat
        (show (([] : List (List Char × Nat)).map Prod.fst).Nodup by simp)
    · intro root
      rw [folderGroups_eq_unfiltered folder hpct cat,
        keys_mem_foldl_sums_opt (fun r => folderRootOf folder r.path)
          (fun r => r.size_bytes) cat [] root]
      simp
    · intro root n hmem
      have hnd : ((folderGroups folder cat).map Prod.fst).Nodup := by
        rw [folderGroups_eq_unfiltered folder hpct cat]
        exact nodup_keys_foldl_sums_opt (fun r => folderRootOf folder r.path)
          (fun r => r.size_bytes) cat
          (show (([] : List (List Char × Nat)).map Prod.fst).Nodup by simp)
      have hl := lookupSum_eq_of_mem hnd hmem
      rw [← hl, folderGroups_eq_unfiltered folder hpct cat,
        lookupSum_foldl_opt (fun r => folderRootOf folder r.path)
          (fun r => r.size_bytes) cat [] root]
      simp [lookupSum]
    · intro sep a hsep hfe r hr hund
      exact folderRootOf_of_under_root folder sep hsep a hfe r.path (hcon r hr) hund
  · have h := foldl_append_map_flatten (fun folder =>
      (folderGroups folder cat).map (fun g =>
        ({ path := g.1, stype := pstr "folder",
           reason := pstr "Pasta de dependências/build (" ++ folder ++ pstr ")",
           action := pstr "ignore", size_bytes := g.2 } : Suggestion)))
      devFolderNames []
    exact h.trans (List.nil_append _)
  · have h := foldl_append_map_flatten (fun folder =>
      (folderGroups folder cat).map (fun g =>
        ({ path := g.1, stype := pstr "folder",
           reason := pstr "Pasta de cache (" ++ folder ++ pstr ")",
           action := pstr "delete", size_bytes := g.2 } : Suggestion)))
      cacheFolderNames []
    exact h.trans (List.nil_append _)

/-- Witness for C7 at the two-root `node_modules` catalog: the theorem's
distinct-roots conjunct is obtained at `folder = "node_modules"` with every
hypothesis discharged by computation, and the groups evaluate to exactly
the two roots with sizes 30 (= 10 + 20) and 40 — no cross-root leakage. -/
theorem C7_folder_rule_grouping_witness :
    ((folderGroups (pstr "node_modules") c7Cat).map Prod.fst).Nodup ∧
    folderGroups (pstr "node_modules") c7Cat =
      [(pstr "/p1/node_modules", 30), (pstr "/p2/node_modules", 40)] :=
  ⟨((C7_folder_rule_grouping c7Cat (by decide)).1 (pstr "node_modules")
      (by decide)).2.1,
   by decide⟩

/-- Counterexample to C7 as stated: on a path mixing both separator styles,
`/a/dist/b\dist\c`, the `dist` segment first occurs slash-bounded at index
2 (root prefix `/a/dist`), but the rules check the backslash-bounded form
first and aggregate to `/a/dist/b\dist` — not the prefix up to the first
occurrence of the segment. -/
theorem C7_mixed_separator_wrong_root :
    folderGroups (pstr "dist") c7MixCat =
      [(pstr "/a/dist/b" ++ '\\' :: pstr "dist", 10)] ∧
    subIndex ('/' :: pstr "dist" ++ ['/']) (pstr "/a/dist/b\\dist\\c") = some 2 ∧
    pstr "/a/dist/b\\dist\\c" =
      pstr "/a" ++ ('/' :: pstr "dist" ++ ['/']) ++ pstr "b\\dist\\c" ∧
    pstr "/a/dist/b" ++ '\\' :: pstr "dist" ≠ pstr "/a" ++ '/' :: pstr "dist" := by
  decide
